import Mathlib

/-!
Verification of the multi-source CV reconciliation engine
(`merge_data.py`, `validate_data.py`) against its design specification.

Python values are shallowly embedded as the `Json` tree type below; Python
dicts are ordered association lists (insertion order preserved, as in
Python 3), numbers are modelled as rationals, and the third-party
similarity scorer `thefuzz.fuzz.ratio` is a parameter of the merge
functions (the spec declares the exact formula non-load-bearing).
Timestamps (`datetime.now()`) are threaded as an explicit string parameter.
-/

/-- A Python/JSON-like value: the dynamic data the engine manipulates.
Mappings keep insertion order, like Python dicts. -/
inductive Json where
  | null : Json
  | bool : Bool → Json
  | num : Rat → Json
  | str : String → Json
  | arr : List Json → Json
  | obj : List (String × Json) → Json
deriving Repr

-- Boolean structural equality on `Json` (Python `==` restricted to
-- structurally identical values; the numeric-vs-bool coercions of Python
-- `==` do not arise in the engine's data).
mutual

def jeq : Json → Json → Bool
  | Json.null, Json.null => true
  | Json.bool a, Json.bool b => a = b
  | Json.num a, Json.num b => a = b
  | Json.str a, Json.str b => a = b
  | Json.arr a, Json.arr b => jeqList a b
  | Json.obj a, Json.obj b => jeqKVs a b
  | _, _ => false

def jeqList : List Json → List Json → Bool
  | [], [] => true
  | a :: as_, b :: bs => jeq a b && jeqList as_ bs
  | _, _ => false

def jeqKVs : List (String × Json) → List (String × Json) → Bool
  | [], [] => true
  | (k, v) :: as_, (k', w) :: bs => k = k' && jeq v w && jeqKVs as_ bs
  | _, _ => false

end

mutual

theorem jeq_iff : ∀ a b, jeq a b = true ↔ a = b
  | Json.null, b => by cases b <;> simp [jeq]
  | Json.bool a, b => by cases b <;> simp [jeq]
  | Json.num a, b => by cases b <;> simp [jeq]
  | Json.str a, b => by cases b <;> simp [jeq]
  | Json.arr a, b => by
      cases b <;> simp [jeq]
      exact jeqList_iff a _
  | Json.obj a, b => by
      cases b <;> simp [jeq]
      exact jeqKVs_iff a _

theorem jeqList_iff : ∀ a b, jeqList a b = true ↔ a = b
  | [], b => by cases b <;> simp [jeqList]
  | x :: xs, b => by
      cases b with
      | nil => simp [jeqList]
      | cons y ys => simp [jeqList, jeq_iff x y, jeqList_iff xs ys]

theorem jeqKVs_iff : ∀ a b, jeqKVs a b = true ↔ a = b
  | [], b => by cases b <;> simp [jeqKVs]
  | (k, v) :: xs, b => by
      cases b with
      | nil => simp [jeqKVs]
      | cons y ys =>
          obtain ⟨k', w⟩ := y
          simp [jeqKVs, jeq_iff v w, jeqKVs_iff xs ys, Prod.ext_iff, and_assoc]

end

instance : DecidableEq Json := fun a b =>
  decidable_of_iff (jeq a b = true) (jeq_iff a b)

example : (Json.str "a") ≠ Json.null := by decide

/-- Python dict lookup `d[k]` / `d.get(k)`: first binding of `k` (Python
dicts have unique keys; association lists model insertion order). -/
def lookupKey : List (String × Json) → String → Option Json
  | [], _ => none
  | (k', v) :: rest, k => if k' = k then some v else lookupKey rest k

/-- Python `k in d`. -/
def hasKey (kvs : List (String × Json)) (k : String) : Bool :=
  (lookupKey kvs k).isSome

/-- Python dict assignment `d[k] = v`: overwrite in place if the key
exists (keeping its position), otherwise append at the end. -/
def setKey : List (String × Json) → String → Json → List (String × Json)
  | [], k, v => [(k, v)]
  | (k', v') :: rest, k, v =>
      if k' = k then (k, v) :: rest else (k', v') :: setKey rest k v

/-- Python `del d[k]` (on a copy): drop the first binding of `k`. -/
def removeKey : List (String × Json) → String → List (String × Json)
  | [], _ => []
  | (k', v') :: rest, k =>
      if k' = k then rest else (k', v') :: removeKey rest k

/-- Python truthiness `bool(x)` of a JSON-like value. -/
def pyTruthy : Json → Bool
  | Json.null => false
  | Json.bool b => b
  | Json.num q => q ≠ 0
  | Json.str s => s ≠ ""
  | Json.arr l => l ≠ []
  | Json.obj kvs => kvs ≠ []

/-- Python `len(x)`: defined on strings, lists and dicts only. -/
def pyLen : Json → Option Nat
  | Json.str s => some s.length
  | Json.arr l => some l.length
  | Json.obj kvs => some kvs.length
  | _ => none

/-- Rendering of a rational as Python would render the number.  The engine
only ever feeds these strings to the similarity scorer (which this
development keeps abstract), so the decimal-vs-fraction choice of
rendering is immaterial; we use `num/den`. -/
def ratStr (q : Rat) : String :=
  if q.den = 1 then toString q.num
  else toString q.num ++ "/" ++ toString q.den

mutual

/-- Python `repr(x)` on JSON-like values (as nested inside containers):
strings are quoted with single quotes, dicts render as
`\x7b'k': v, ...\x7d`, lists as `[a, b]`. -/
def pyRepr : Json → String
  | Json.null => "None"
  | Json.bool b => if b then "True" else "False"
  | Json.num q => ratStr q
  | Json.str s => "\x27" ++ s ++ "\x27"
  | Json.arr l => "[" ++ pyReprList l ++ "]"
  | Json.obj kvs => "\x7b" ++ pyReprKVs kvs ++ "\x7d"

def pyReprList : List Json → String
  | [] => ""
  | [x] => pyRepr x
  | x :: rest => pyRepr x ++ ", " ++ pyReprList rest

def pyReprKVs : List (String × Json) → String
  | [] => ""
  | [(k, v)] => "\x27" ++ k ++ "\x27: " ++ pyRepr v
  | (k, v) :: rest => "\x27" ++ k ++ "\x27: " ++ pyRepr v ++ ", " ++ pyReprKVs rest

end

/-- Python `str(x)`: like `repr` except a top-level string renders bare. -/
def pyStr : Json → String
  | Json.str s => s
  | j => pyRepr j

/-- The configuration data `merge_sources` actually reads: the merge
strategy `config[merging_rules][strategy]`, the calling source's name and
its confidence `config[data_sources][source_name][confidence]`, and the
pre-scaled list threshold
`config[merging_rules][list_matching_threshold] * 100`.  All four are
constant through one source's recursive merge. -/
structure Cfg where
  strategy : String
  srcName : String
  newConfidence : Rat
  threshold : Rat
deriving Repr

mutual

/-- `transform_to_merged_format` (merge_data.py, lines 12-26): recursively
wraps every scalar of a raw tree into a provenance-tagged Field record.
The Python code samples `datetime.now()` at each recursive call; all those
samples are modelled by the single timestamp parameter `ts`. -/
def transform_to_merged_format (src : String) (conf : Rat) (ts : String) : Json → Json
  | Json.obj kvs => Json.obj (transformKVs src conf ts kvs)
  | Json.arr l => Json.arr (transformList src conf ts l)
  | d => Json.obj [("value", d), ("source", Json.str src),
      ("timestamp", Json.str ts), ("confidence", Json.num conf),
      ("conflicts", Json.arr [])]

def transformKVs (src : String) (conf : Rat) (ts : String) :
    List (String × Json) → List (String × Json)
  | [] => []
  | (k, v) :: rest =>
      (k, transform_to_merged_format src conf ts v) :: transformKVs src conf ts rest

def transformList (src : String) (conf : Rat) (ts : String) : List Json → List Json
  | [] => []
  | x :: rest =>
      transform_to_merged_format src conf ts x :: transformList src conf ts rest

end

/-- One identity-field part of a comparison string
(`str(item.get(field, '')['value' if dict])`, merge_data.py lines 41-44). -/
def partOf (kvs : List (String × Json)) (f : String) : String :=
  match lookupKey kvs f with
  | none => pyStr (Json.str "")
  | some (Json.obj vkvs) =>
      match lookupKey vkvs "value" with
      | some v => pyStr v
      | none => "None"
  | some v => pyStr v

/-- `get_comparison_string` (merge_data.py, lines 28-46): the string an
item is fuzzily compared by.  Items of the two registered identity-bearing
types concatenate their identity fields (case-folded); every other item is
rendered whole by Python `str`. -/
def get_comparison_string (item : Json) (itemType : String) : String :=
  match item with
  | Json.obj kvs =>
      if itemType = "work_experience" then
        (String.intercalate " " [partOf kvs "company", partOf kvs "position"]).toLower
      else if itemType = "education" then
        (String.intercalate " " [partOf kvs "institution", partOf kvs "degree"]).toLower
      else pyStr item
  | _ => pyStr item

/-- `merged_node.get('confidence', 0)` read as a number (merge_data.py,
line 95).  A non-numeric confidence would make the Python comparison on
line 96 raise `TypeError`; such malformed Fields are outside every claim
and are mapped to 0 here. -/
def confOf (kvs : List (String × Json)) : Rat :=
  match lookupKey kvs "confidence" with
  | some (Json.num q) => q
  | _ => 0

/-- `merged_node['conflicts'].append(e)` (merge_data.py, lines 99/108/115).
A Field whose `conflicts` key is absent or not a list would make Python
raise (`KeyError`/`AttributeError`); such malformed Fields are outside
every claim and are left unchanged here. -/
def appendConflict (kvs : List (String × Json)) (e : Json) : List (String × Json) :=
  match lookupKey kvs "conflicts" with
  | some (Json.arr l) => setKey kvs "conflicts" (Json.arr (l ++ [e]))
  | _ => kvs

/-- The conflict-resolution block of `merge_sources` (merge_data.py, lines
90-115), factored out verbatim: reached for an existing dict node carrying
a `value` key and a non-dict, non-list incoming value.  Returns the
updated Field dict. -/
def resolveConflict (cfg : Cfg) (ts : String) (mkvs : List (String × Json))
    (newValue : Json) : List (String × Json) :=
  if lookupKey mkvs "value" = some newValue then mkvs
  else if cfg.strategy = "highest_confidence_wins" then
    if cfg.newConfidence > confOf mkvs then
      let oldWinner := Json.obj (removeKey mkvs "conflicts")
      let withHist := appendConflict mkvs oldWinner
      setKey (setKey (setKey (setKey withHist
        "value" newValue)
        "source" (Json.str cfg.srcName))
        "timestamp" (Json.str ts))
        "confidence" (Json.num cfg.newConfidence)
    else
      appendConflict mkvs (Json.obj [("value", newValue),
        ("source", Json.str cfg.srcName), ("timestamp", Json.str ts),
        ("confidence", Json.num cfg.newConfidence)])
  else
    appendConflict mkvs (transform_to_merged_format cfg.srcName cfg.newConfidence ts newValue)

/-- The best-match scan of the list-merge loop (merge_data.py, lines
66-75): fold over the existing items keeping the first strictly-improving
score; `best_match_node` starts as `None` and only becomes set on a
strictly positive score. -/
def bestMatchAux (scoreOf : Json → Nat) : List Json → Nat → Nat →
    Option (Nat × Json) → Nat × Option (Nat × Json)
  | [], _, bestScore, best => (bestScore, best)
  | x :: xs, i, bestScore, best =>
      let sc := scoreOf x
      if sc > bestScore then bestMatchAux scoreOf xs (i + 1) sc (some (i, x))
      else bestMatchAux scoreOf xs (i + 1) bestScore best

/-- The trailing `elif`/implicit-`else` of the `merge_sources` dispatch
(merge_data.py, lines 89-115): reached when the incoming value and the
existing node are not both dicts and not both lists.  An existing dict
carrying a `value` key goes to the Conflict Resolver; anything else is
skipped silently. -/
def scalarBranch (cfg : Cfg) (ts : String) (merged : List (String × Json))
    (key : String) (mergedNode newValue : Json) : List (String × Json) :=
  match mergedNode with
  | Json.obj mkvs =>
      if hasKey mkvs "value" then
        setKey merged key (Json.obj (resolveConflict cfg ts mkvs newValue))
      else merged
  | _ => merged

mutual

/-- `merge_sources` (merge_data.py, lines 48-115): folds one raw source
tree into the accumulating reconciled dict, key by key.  `fz` is the
external similarity scorer `thefuzz.fuzz.ratio` (scores in 0-100),
abstracted as a parameter; `ts` models every `datetime.now()` sample of
the run. -/
def merge_sources (fz : String → String → Nat) (cfg : Cfg) (ts : String) :
    List (String × Json) → List (String × Json) → List (String × Json)
  | merged, [] => merged
  | merged, (key, newValue) :: rest =>
      merge_sources fz cfg ts (mergeKey fz cfg ts merged key newValue) rest
termination_by structural m nd => nd

/-- The body of the `for key, new_value in new_data.items()` loop of
`merge_sources` for one key (merge_data.py, lines 54-115). -/
def mergeKey (fz : String → String → Nat) (cfg : Cfg) (ts : String)
    (merged : List (String × Json)) (key : String) (newValue : Json) :
    List (String × Json) :=
  match lookupKey merged key with
  | none => setKey merged key (transform_to_merged_format cfg.srcName cfg.newConfidence ts newValue)
  | some mergedNode =>
      match newValue with
      | Json.obj nkvs =>
          match mergedNode with
          | Json.obj mkvs => setKey merged key (Json.obj (merge_sources fz cfg ts mkvs nkvs))
          | _ => scalarBranch cfg ts merged key mergedNode (Json.obj nkvs)
      | Json.arr nitems =>
          match mergedNode with
          | Json.arr mitems =>
              setKey merged key (Json.arr (mergeItems fz cfg ts key mitems nitems []))
          | _ => scalarBranch cfg ts merged key mergedNode (Json.arr nitems)
      | nv => scalarBranch cfg ts merged key mergedNode nv
termination_by structural newValue

/-- The fuzzy list-correspondence loop of `merge_sources` (merge_data.py,
lines 62-87): each incoming item is matched against the *current* state of
the existing list; matched dict items are merged in place, unmatched items
are collected and appended (transformed) after the loop.  A matched
best node that is not a dict while the incoming item is a non-empty dict
would make the recursive Python call raise `TypeError`; that unreachable
(for the claims) corner is modelled as a skip. -/
def mergeItems (fz : String → String → Nat) (cfg : Cfg) (ts : String) (key : String) :
    List Json → List Json → List Json → List Json
  | existing, [], unmatched =>
      existing ++ unmatched.map (transform_to_merged_format cfg.srcName cfg.newConfidence ts)
  | existing, item :: rest, unmatched =>
      let s := get_comparison_string item key
      let found := bestMatchAux (fun e => fz s (get_comparison_string e key)) existing 0 0 none
      match found with
      | (bestScore, some (i, node)) =>
          if pyTruthy node ∧ cfg.threshold ≤ (bestScore : Rat) then
            match item, node with
            | Json.obj ikvs, Json.obj nkvs =>
                mergeItems fz cfg ts key
                  (existing.set i (Json.obj (merge_sources fz cfg ts nkvs ikvs))) rest unmatched
            | _, _ => mergeItems fz cfg ts key existing rest unmatched
          else mergeItems fz cfg ts key existing rest (unmatched ++ [item])
      | (_, none) => mergeItems fz cfg ts key existing rest (unmatched ++ [item])
termination_by structural a b c => b

end

/-- One record of `DataValidator.issues` (validate_data.py): the dict
`\x7b'type': ..., 'path': ..., 'details': ...\x7d`. -/
structure Issue where
  kind : String
  path : String
  details : String
deriving DecidableEq, Repr

/-- `DataValidator._validate_field` (validate_data.py, lines 53-69),
reached for a dict node containing both `value` and `source` keys.  The
Python code would raise `TypeError` on `len` if `conflicts` were a truthy
number or boolean; that is the `Except.error` case. -/
def validate_field (kvs : List (String × Json)) (path : String) :
    Except String (List Issue) :=
  match lookupKey kvs "value", lookupKey kvs "source" with
  | some v, some src =>
      let mv : List Issue :=
        if v = Json.null ∨ v = Json.str "" then
          [⟨"Missing Value", path,
            "The primary value is empty or null. Source: " ++ pyStr src ++ "."⟩]
        else []
      (match lookupKey kvs "conflicts" with
      | none => Except.ok mv
      | some c =>
          if pyTruthy c then
            match pyLen c with
            | some n =>
                if n > 0 then
                  Except.ok (mv ++ [⟨"Conflict Found", path,
                    toString n ++ " conflicting value(s) exist."⟩])
                else Except.ok mv
            | none => Except.error "TypeError: object of this type has no len"
          else Except.ok mv)
  | _, _ => Except.error "KeyError"

/-- The issue `_validate_list_items` appends for a missing/empty required
identity field (validate_data.py, lines 78-82). -/
def mrfIssue (ipath f : String) : Issue :=
  ⟨"Missing Required Field", ipath,
    "Entry is missing a value for required field: \x27" ++ f ++ "\x27."⟩

/-- The inner `for field_name in required_fields` loop of
`_validate_list_items` for one dict item (validate_data.py, lines 76-82).
`item[field_name].get('value')` raises `AttributeError` when the field's
value is not a dict; that is the `Except.error` case. -/
def vliField (kvs : List (String × Json)) (ipath f : String) :
    Except String (List Issue) :=
  match lookupKey kvs f with
  | none => Except.ok [mrfIssue ipath f]
  | some (Json.obj fkvs) =>
      (match lookupKey fkvs "value" with
      | none => Except.ok [mrfIssue ipath f]
      | some Json.null => Except.ok [mrfIssue ipath f]
      | some (Json.str s) =>
          if s = "" then Except.ok [mrfIssue ipath f] else Except.ok []
      | some _ => Except.ok [])
  | some _ => Except.error "AttributeError: object has no attribute get"

def vliFields (kvs : List (String × Json)) (ipath : String) :
    List String → Except String (List Issue)
  | [] => Except.ok []
  | f :: fs =>
      match vliField kvs ipath f with
      | Except.error e => Except.error e
      | Except.ok here =>
          match vliFields kvs ipath fs with
          | Except.error e => Except.error e
          | Except.ok rest => Except.ok (here ++ rest)

/-- `DataValidator._validate_list_items` (validate_data.py, lines 71-82):
checks required identity fields of each dict item of a list; non-dict
items are skipped. -/
def validate_list_items (path : String) (fields : List String) :
    List Json → Nat → Except String (List Issue)
  | [], _ => Except.ok []
  | item :: rest, i =>
      match (match item with
        | Json.obj kvs => vliFields kvs (path ++ "[" ++ toString i ++ "]") fields
        | _ => Except.ok []) with
      | Except.error e => Except.error e
      | Except.ok here =>
          match validate_list_items path fields rest (i + 1) with
          | Except.error e => Except.error e
          | Except.ok more => Except.ok (here ++ more)

/-- `f"\x7bpath\x7d.\x7bkey\x7d" if path else key` (validate_data.py, line 41). -/
def childPath (path k : String) : String :=
  if path = "" then k else path ++ "." ++ k

/-- Sequencing of two validator sub-traversals: Python runs the first;
if it raises, the run aborts with that exception, otherwise the issue
lists are concatenated in order. -/
def exceptSeq (a b : Except String (List Issue)) : Except String (List Issue) :=
  match a with
  | Except.error e => Except.error e
  | Except.ok x =>
      match b with
      | Except.error e => Except.error e
      | Except.ok y => Except.ok (x ++ y)

/-- Python `path.endswith(suffix)`: suffix check on the character
sequences (behaviourally `String.endsWith`, stated on the underlying
character lists so that it evaluates inside the kernel). -/
def strEndsWith (s post : String) : Bool :=
  post.data.isSuffixOf s.data

/-- The required-fields pre-check `_traverse` runs on a list node before
descending (validate_data.py, lines 44-48), keyed on the path suffix. -/
def dv_preCheck (path : String) (xs : List Json) : Except String (List Issue) :=
  if strEndsWith path "work_experience" then
    validate_list_items path ["company", "position"] xs 0
  else if strEndsWith path "education" then
    validate_list_items path ["institution", "degree"] xs 0
  else Except.ok []

mutual

/-- `DataValidator._traverse` (validate_data.py, lines 33-51): walks the
tree, treating any dict with both `value` and `source` keys as a Field and
otherwise recursing; on lists, first checks required identity fields when
the path ends in the two registered entity names, then recurses per index.
Returns the issues this subtree appends to `self.issues`, or the message
of the exception Python would raise. -/
def dv_traverse : Json → String → Except String (List Issue)
  | Json.obj kvs, path =>
      if hasKey kvs "value" && hasKey kvs "source" then validate_field kvs path
      else dv_traverseKVs kvs path
  | Json.arr xs, path => exceptSeq (dv_preCheck path xs) (dv_traverseList xs path 0)
  | _, _ => Except.ok []

def dv_traverseKVs : List (String × Json) → String → Except String (List Issue)
  | [], _ => Except.ok []
  | (k, v) :: rest, path =>
      exceptSeq (dv_traverse v (childPath path k)) (dv_traverseKVs rest path)

def dv_traverseList : List Json → String → Nat → Except String (List Issue)
  | [], _, _ => Except.ok []
  | x :: xs, path, i =>
      exceptSeq (dv_traverse x (path ++ "[" ++ toString i ++ "]"))
        (dv_traverseList xs path (i + 1))

end

/-! ## Specification-side notions (data model of spec §3) -/

/-- A non-container scalar position (string, number, boolean, null). -/
def isScalar : Json → Bool
  | Json.obj _ => false
  | Json.arr _ => false
  | _ => true

/-- A Field record per spec §3: a mapping with exactly the five keys
`value, source, timestamp, confidence, conflicts` (in the order the Field
Transformer writes them), a scalar `value`, string `source`/`timestamp`,
numeric `confidence`, and a sequence of conflict entries. -/
def isFieldKVs (kvs : List (String × Json)) : Bool :=
  kvs.map Prod.fst = ["value", "source", "timestamp", "confidence", "conflicts"]
  && (match lookupKey kvs "value" with | some v => isScalar v | none => false)
  && (match lookupKey kvs "source" with | some (Json.str _) => true | _ => false)
  && (match lookupKey kvs "timestamp" with | some (Json.str _) => true | _ => false)
  && (match lookupKey kvs "confidence" with | some (Json.num _) => true | _ => false)
  && (match lookupKey kvs "conflicts" with | some (Json.arr _) => true | _ => false)

def isField : Json → Bool
  | Json.obj kvs => isFieldKVs kvs
  | _ => false

/-- Unique keys, as Python dicts guarantee. -/
def uniqKeys (kvs : List (String × Json)) : Bool :=
  (kvs.map Prod.fst).Nodup

mutual

/-- Well-formed Reconciled Node per spec §3: every leaf is exactly one
Field, every non-leaf a mapping (with unique keys) or sequence of
Reconciled Nodes. -/
def wfNode : Json → Bool
  | Json.obj kvs => isFieldKVs kvs || (uniqKeys kvs && wfKVs kvs)
  | Json.arr xs => wfList xs
  | _ => false

def wfKVs : List (String × Json) → Bool
  | [] => true
  | (_, v) :: rest => wfNode v && wfKVs rest

def wfList : List Json → Bool
  | [] => true
  | x :: xs => wfNode x && wfList xs

end

mutual

/-- Recover the raw tree from a reconciled tree: each Field collapses to
its `value`, containers are mapped element-wise (inverse of the Field
Transformer). -/
def strip : Json → Json
  | Json.obj kvs =>
      if isFieldKVs kvs then
        match lookupKey kvs "value" with
        | some v => v
        | none => Json.null
      else Json.obj (stripKVs kvs)
  | Json.arr xs => Json.arr (stripList xs)
  | s => s

def stripKVs : List (String × Json) → List (String × Json)
  | [] => []
  | (k, v) :: rest => (k, strip v) :: stripKVs rest

def stripList : List Json → List Json
  | [] => []
  | x :: xs => strip x :: stripList xs

end

mutual

/-- Every Field of the tree carries the given source name, the given
confidence, and an empty conflicts list (spec §8, baseline idempotence). -/
def fieldsOk (s : String) (c : Rat) : Json → Bool
  | Json.obj kvs =>
      if isFieldKVs kvs then
        decide (lookupKey kvs "source" = some (Json.str s))
        && decide (lookupKey kvs "confidence" = some (Json.num c))
        && decide (lookupKey kvs "conflicts" = some (Json.arr []))
      else fieldsOkKVs s c kvs
  | Json.arr xs => fieldsOkList s c xs
  | _ => true

def fieldsOkKVs (s : String) (c : Rat) : List (String × Json) → Bool
  | [] => true
  | (_, v) :: rest => fieldsOk s c v && fieldsOkKVs s c rest

def fieldsOkList (s : String) (c : Rat) : List Json → Bool
  | [] => true
  | x :: xs => fieldsOk s c x && fieldsOkList s c xs

end

mutual

/-- No mapping of the tree other than a Field itself carries both a
`value` and a `source` key, so the Validator's runtime Field detection
(`'value' in node and 'source' in node`) is unambiguous. -/
def unambAll : Json → Bool
  | Json.obj kvs =>
      if isFieldKVs kvs then true
      else !(hasKey kvs "value" && hasKey kvs "source") && unambKVs kvs
  | Json.arr xs => unambList xs
  | _ => true

def unambKVs : List (String × Json) → Bool
  | [] => true
  | (_, v) :: rest => unambAll v && unambKVs rest

def unambList : List Json → Bool
  | [] => true
  | x :: xs => unambAll x && unambList xs

end

/-- The four identity-field names the Validator checks in entity lists. -/
def idFieldNames : List String := ["company", "position", "institution", "degree"]

/-- In a mapping list element, every identity field present is itself a
mapping (so `item[f].get('value')` cannot raise). -/
def idOkItem : Json → Bool
  | Json.obj kvs =>
      idFieldNames.all fun f =>
        match lookupKey kvs f with
        | some (Json.obj _) => true
        | some _ => false
        | none => true
  | _ => true

mutual

/-- Everywhere in the tree, mapping elements of sequences have
mapping-shaped identity fields (when present). -/
def idOkAll : Json → Bool
  | Json.obj kvs => idOkKVs kvs
  | Json.arr xs => idOkList xs
  | _ => true

def idOkKVs : List (String × Json) → Bool
  | [] => true
  | (_, v) :: rest => idOkAll v && idOkKVs rest

def idOkList : List Json → Bool
  | [] => true
  | x :: xs => idOkItem x && idOkAll x && idOkList xs

end

/-- Keep only the two issue kinds claim C7 speaks about. -/
def keepMVCF (i : Issue) : Bool :=
  i.kind = "Missing Value" || i.kind = "Conflict Found"

/-- Modelled from the spec (§4.5): the Missing Value / Conflict Found
issues one Field must contribute — one `MissingValue\x7bpath, source\x7d`
when its value is null or empty, one `ConflictFound\x7bpath, count\x7d`
when it has n ≥ 1 conflict entries. -/
def specFieldIssues (kvs : List (String × Json)) (path : String) : List Issue :=
  (match lookupKey kvs "value", lookupKey kvs "source" with
   | some v, some src =>
      if v = Json.null ∨ v = Json.str "" then
        [⟨"Missing Value", path,
          "The primary value is empty or null. Source: " ++ pyStr src ++ "."⟩]
      else []
   | _, _ => [])
  ++ (match lookupKey kvs "conflicts" with
   | some (Json.arr l) =>
      if l = [] then []
      else [⟨"Conflict Found", path,
        toString l.length ++ " conflicting value(s) exist."⟩]
   | _ => [])

mutual

/-- Modelled from the spec (§4.5): the ordered sequence of Missing Value
and Conflict Found issues of a reconciled tree, in document order — one
per Field, keyed by the spec's notion of Field (spec §3), independent of
the Validator's runtime detection heuristic. -/
def specIssues : Json → String → List Issue
  | Json.obj kvs, path =>
      if isFieldKVs kvs then specFieldIssues kvs path
      else specIssuesKVs kvs path
  | Json.arr xs, path => specIssuesList xs path 0
  | _, _ => []

def specIssuesKVs : List (String × Json) → String → List Issue
  | [], _ => []
  | (k, v) :: rest, path => specIssues v (childPath path k) ++ specIssuesKVs rest path

def specIssuesList : List Json → String → Nat → List Issue
  | [], _, _ => []
  | x :: xs, path, i =>
      specIssues x (path ++ "[" ++ toString i ++ "]") ++ specIssuesList xs path (i + 1)

end

mutual

/-- How one merge pass may evolve a reconciled node (spec §3's
monotonicity): scalars are frozen; mappings and sequences keep every
existing entry at its position (keys unchanged, values evolved) and may
gain new entries at the end only. -/
def Grows : Json → Json → Prop
  | Json.obj o, n =>
      match n with
      | Json.obj n' => GrowsKVs o n'
      | _ => False
  | Json.arr o, n =>
      match n with
      | Json.arr n' => GrowsList o n'
      | _ => False
  | a, b => b = a

def GrowsKVs : List (String × Json) → List (String × Json) → Prop
  | [], _ => True
  | _ :: _, [] => False
  | (k, v) :: r, (k', w) :: r' => k' = k ∧ Grows v w ∧ GrowsKVs r r'

def GrowsList : List Json → List Json → Prop
  | [], _ => True
  | _ :: _, [] => False
  | v :: r, w :: r' => Grows v w ∧ GrowsList r r'

end

/-- A path into a JSON tree (mapping key / sequence index steps). -/
inductive JPath where
  | nil : JPath
  | key : String → JPath → JPath
  | idx : Nat → JPath → JPath

/-- Follow a path. -/
def getPath : Json → JPath → Option Json
  | j, JPath.nil => some j
  | Json.obj kvs, JPath.key k p => (lookupKey kvs k).bind (getPath · p)
  | Json.arr xs, JPath.idx i p => xs[i]?.bind (getPath · p)
  | _, _ => none

/-- The Reconciliation Driver's loop (merge_data.py, lines 133-141): merge
each subsequent source in turn into the accumulated tree; each source
brings its own configuration-derived parameters. -/
def mergeAll (fz : String → String → Nat) (ts : String) :
    List (Cfg × List (String × Json)) → List (String × Json) → List (String × Json)
  | [], merged => merged
  | (cfg, nd) :: rest, merged => mergeAll fz ts rest (merge_sources fz cfg ts merged nd)

/-! ## Helper lemmas -/

theorem sizeOf_json_pos : ∀ j : Json, 0 < sizeOf j := by
  intro j; cases j <;> simp

theorem sizeOf_mem_arr {x : Json} {xs : List Json} (h : x ∈ xs) :
    sizeOf x < sizeOf (Json.arr xs) := by
  have h1 := List.sizeOf_lt_of_mem h
  simp only [Json.arr.sizeOf_spec]
  omega

theorem sizeOf_mem_obj {p : String × Json} {kvs : List (String × Json)}
    (h : p ∈ kvs) : sizeOf p.2 < sizeOf (Json.obj kvs) := by
  have h1 := List.sizeOf_lt_of_mem h
  obtain ⟨a, b⟩ := p
  simp only [Json.obj.sizeOf_spec, Prod.mk.sizeOf_spec] at *
  omega

/-- Structural induction for the nested inductive `Json`. -/
theorem json_ind (P : Json → Prop)
    (hnull : P Json.null) (hbool : ∀ b, P (Json.bool b))
    (hnum : ∀ q, P (Json.num q)) (hstr : ∀ s, P (Json.str s))
    (harr : ∀ xs, (∀ x ∈ xs, P x) → P (Json.arr xs))
    (hobj : ∀ kvs, (∀ p ∈ kvs, P p.2) → P (Json.obj kvs)) : ∀ j, P j
  | Json.null => hnull
  | Json.bool b => hbool b
  | Json.num q => hnum q
  | Json.str s => hstr s
  | Json.arr xs => harr xs fun x hx =>
      json_ind P hnull hbool hnum hstr harr hobj x
  | Json.obj kvs => hobj kvs fun p hp =>
      json_ind P hnull hbool hnum hstr harr hobj p.2
termination_by j => sizeOf j
decreasing_by
  · exact sizeOf_mem_arr hx
  · exact sizeOf_mem_obj hp

theorem transformKVs_eq_map (src : String) (conf : Rat) (ts : String)
    (kvs : List (String × Json)) :
    transformKVs src conf ts kvs
      = kvs.map fun p => (p.1, transform_to_merged_format src conf ts p.2) := by
  induction kvs with
  | nil => simp [transformKVs]
  | cons p rest ih => obtain ⟨k, v⟩ := p; simp [transformKVs, ih]

theorem transformList_eq_map (src : String) (conf : Rat) (ts : String)
    (xs : List Json) :
    transformList src conf ts xs = xs.map (transform_to_merged_format src conf ts) := by
  induction xs with
  | nil => simp [transformList]
  | cons x rest ih => simp [transformList, ih]

theorem lookup_transformKVs (src : String) (conf : Rat) (ts : String)
    (kvs : List (String × Json)) (k : String) :
    lookupKey (transformKVs src conf ts kvs) k
      = (lookupKey kvs k).map (transform_to_merged_format src conf ts) := by
  induction kvs with
  | nil => simp [transformKVs, lookupKey]
  | cons p rest ih =>
      obtain ⟨k', v⟩ := p
      by_cases h : k' = k <;> simp [transformKVs, lookupKey, h, ih]

theorem isScalar_transform (src : String) (conf : Rat) (ts : String) (d : Json) :
    isScalar (transform_to_merged_format src conf ts d) = false := by
  cases d <;> simp [transform_to_merged_format, isScalar]

theorem isFieldKVs_transformKVs (src : String) (conf : Rat) (ts : String)
    (kvs : List (String × Json)) :
    isFieldKVs (transformKVs src conf ts kvs) = false := by
  unfold isFieldKVs
  rw [lookup_transformKVs]
  cases h : lookupKey kvs "value" with
  | none => simp
  | some v => simp [isScalar_transform]

theorem strip_transform (src : String) (conf : Rat) (ts : String) :
    ∀ d, strip (transform_to_merged_format src conf ts d) = d := by
  intro d
  induction d using json_ind with
  | hnull => simp [transform_to_merged_format, strip, isFieldKVs, lookupKey, isScalar]
  | hbool b => simp [transform_to_merged_format, strip, isFieldKVs, lookupKey, isScalar]
  | hnum q => simp [transform_to_merged_format, strip, isFieldKVs, lookupKey, isScalar]
  | hstr s => simp [transform_to_merged_format, strip, isFieldKVs, lookupKey, isScalar]
  | harr xs ih =>
      simp only [transform_to_merged_format, strip, Json.arr.injEq]
      rw [transformList_eq_map]
      induction xs with
      | nil => simp [stripList]
      | cons x rest ihr =>
          simp only [List.map_cons, stripList, List.cons.injEq]
          exact ⟨ih x (by simp), ihr fun y hy => ih y (by simp [hy])⟩
  | hobj kvs ih =>
      simp only [transform_to_merged_format, strip, isFieldKVs_transformKVs,
        Bool.false_eq_true, if_false, Json.obj.injEq]
      rw [transformKVs_eq_map]
      induction kvs with
      | nil => simp [stripKVs]
      | cons p rest ihr =>
          obtain ⟨k, v⟩ := p
          simp only [List.map_cons, stripKVs, List.cons.injEq]
          refine ⟨by simp [ih ⟨k, v⟩ (by simp)], ihr fun q hq => ih q (by simp [hq])⟩

theorem fieldsOk_transform (src : String) (conf : Rat) (ts : String) :
    ∀ d, fieldsOk src conf (transform_to_merged_format src conf ts d) = true := by
  intro d
  induction d using json_ind with
  | hnull => simp [transform_to_merged_format, fieldsOk, isFieldKVs, lookupKey, isScalar]
  | hbool b => simp [transform_to_merged_format, fieldsOk, isFieldKVs, lookupKey, isScalar]
  | hnum q => simp [transform_to_merged_format, fieldsOk, isFieldKVs, lookupKey, isScalar]
  | hstr s => simp [transform_to_merged_format, fieldsOk, isFieldKVs, lookupKey, isScalar]
  | harr xs ih =>
      simp only [transform_to_merged_format, fieldsOk]
      rw [transformList_eq_map]
      induction xs with
      | nil => simp [fieldsOkList]
      | cons x rest ihr =>
          simp only [List.map_cons, fieldsOkList, Bool.and_eq_true]
          exact ⟨ih x (by simp), ihr fun y hy => ih y (by simp [hy])⟩
  | hobj kvs ih =>
      simp only [transform_to_merged_format, fieldsOk, isFieldKVs_transformKVs,
        Bool.false_eq_true, if_false]
      rw [transformKVs_eq_map]
      induction kvs with
      | nil => simp [fieldsOkKVs]
      | cons p rest ihr =>
          obtain ⟨k, v⟩ := p
          simp only [List.map_cons, fieldsOkKVs, Bool.and_eq_true]
          exact ⟨ih ⟨k, v⟩ (by simp), ihr fun q hq => ih q (by simp [hq])⟩

/-! ## Claim theorems -/

/-- C8: the Field Transformer is structure-preserving and total on
well-formed JSON-like input: mappings and sequences are transformed
element-wise over the same keys and indices, every scalar becomes a Field
`\x7bvalue: scalar, source, timestamp, confidence, conflicts: []\x7d`; hence the
baseline tree satisfies spec §8's baseline idempotence — stripping the
transformed tree returns every Field's value to the source's scalar, and
every Field carries the source's name, the given confidence and an empty
conflicts list. -/
theorem C8_transformer_structure (src : String) (conf : Rat) (ts : String) :
    (∀ kvs, transform_to_merged_format src conf ts (Json.obj kvs)
        = Json.obj (kvs.map fun p => (p.1, transform_to_merged_format src conf ts p.2)))
    ∧ (∀ xs, transform_to_merged_format src conf ts (Json.arr xs)
        = Json.arr (xs.map (transform_to_merged_format src conf ts)))
    ∧ (∀ d, isScalar d = true → transform_to_merged_format src conf ts d
        = Json.obj [("value", d), ("source", Json.str src),
            ("timestamp", Json.str ts), ("confidence", Json.num conf),
            ("conflicts", Json.arr [])])
    ∧ (∀ d, strip (transform_to_merged_format src conf ts d) = d)
    ∧ (∀ d, fieldsOk src conf (transform_to_merged_format src conf ts d) = true) := by
  refine ⟨fun kvs => ?_, fun xs => ?_, fun d hd => ?_, strip_transform src conf ts,
    fieldsOk_transform src conf ts⟩
  · simp [transform_to_merged_format, transformKVs_eq_map]
  · simp [transform_to_merged_format, transformList_eq_map]
  · cases d <;> simp_all [transform_to_merged_format, isScalar]

/-- Witness for C8 at a concrete scalar input. -/
theorem C8_transformer_structure_w :
    isScalar (Json.num 3) = true
    ∧ transform_to_merged_format "cv" 1 "T" (Json.num 3)
        = Json.obj [("value", Json.num 3), ("source", Json.str "cv"),
            ("timestamp", Json.str "T"), ("confidence", Json.num 1),
            ("conflicts", Json.arr [])]
    ∧ strip (transform_to_merged_format "cv" 1 "T" (Json.num 3)) = Json.num 3 :=
  ⟨by decide,
   (C8_transformer_structure "cv" 1 "T").2.2.1 (Json.num 3) (by decide),
   (C8_transformer_structure "cv" 1 "T").2.2.2.1 (Json.num 3)⟩

/-- C1: under `highest_confidence_wins`, for a Field leaf whose value
differs from the incoming scalar: if the incoming confidence is strictly
greater, the current value/source/timestamp/confidence are copied into one
new conflict entry (the copy's own conflicts sub-list removed) appended to
`conflicts`, and the Field's value/source/timestamp/confidence are
overwritten; otherwise — ties included — the Field is unchanged and the
incoming value/source/timestamp/confidence are appended as one fresh
conflict entry.  In both cases exactly one entry is appended. -/
theorem C1_highest_confidence_wins (fz : String → String → Nat) (cfg : Cfg)
    (ts : String) (merged : List (String × Json)) (key : String)
    (v0 : Json) (s0 t0 : String) (c0 : Rat) (l : List Json) (newValue : Json)
    (hstrat : cfg.strategy = "highest_confidence_wins")
    (hfield : lookupKey merged key = some (Json.obj [("value", v0),
      ("source", Json.str s0), ("timestamp", Json.str t0),
      ("confidence", Json.num c0), ("conflicts", Json.arr l)]))
    (hscal : isScalar newValue = true)
    (hne : v0 ≠ newValue) :
    mergeKey fz cfg ts merged key newValue
      = setKey merged key (Json.obj (
          if c0 < cfg.newConfidence then
            [("value", newValue), ("source", Json.str cfg.srcName),
             ("timestamp", Json.str ts),
             ("confidence", Json.num cfg.newConfidence),
             ("conflicts", Json.arr (l ++ [Json.obj [("value", v0),
               ("source", Json.str s0), ("timestamp", Json.str t0),
               ("confidence", Json.num c0)]]))]
          else
            [("value", v0), ("source", Json.str s0),
             ("timestamp", Json.str t0), ("confidence", Json.num c0),
             ("conflicts", Json.arr (l ++ [Json.obj [("value", newValue),
               ("source", Json.str cfg.srcName), ("timestamp", Json.str ts),
               ("confidence", Json.num cfg.newConfidence)]]))])) := by
  have hne' : ¬(some v0 = some newValue) := by simp [hne]
  cases newValue <;> simp_all [mergeKey, scalarBranch, hasKey, lookupKey,
    resolveConflict, confOf, appendConflict, removeKey, setKey, isScalar, gt_iff_lt]

/-- Witness for C1: a tie (equal confidence, differing values) leaves the
incumbent and appends the incoming value as a conflict entry. -/
theorem C1_highest_confidence_wins_w :
    mergeKey (fun _ _ => 0) ⟨"highest_confidence_wins", "web", 1, 80⟩ "T2"
        [("email", Json.obj [("value", Json.str "a@x.com"),
          ("source", Json.str "cv"), ("timestamp", Json.str "T"),
          ("confidence", Json.num 1), ("conflicts", Json.arr [])])]
        "email" (Json.str "b@x.com")
      = setKey [("email", Json.obj [("value", Json.str "a@x.com"),
          ("source", Json.str "cv"), ("timestamp", Json.str "T"),
          ("confidence", Json.num 1), ("conflicts", Json.arr [])])]
        "email" (Json.obj (
          if (1 : Rat) < (1 : Rat) then
            [("value", Json.str "b@x.com"), ("source", Json.str "web"),
             ("timestamp", Json.str "T2"), ("confidence", Json.num 1),
             ("conflicts", Json.arr [Json.obj [("value", Json.str "a@x.com"),
               ("source", Json.str "cv"), ("timestamp", Json.str "T"),
               ("confidence", Json.num 1)]])]
          else
            [("value", Json.str "a@x.com"), ("source", Json.str "cv"),
             ("timestamp", Json.str "T"), ("confidence", Json.num 1),
             ("conflicts", Json.arr [Json.obj [("value", Json.str "b@x.com"),
               ("source", Json.str "web"), ("timestamp", Json.str "T2"),
               ("confidence", Json.num 1)]])])) :=
  C1_highest_confidence_wins (fun _ _ => 0) ⟨"highest_confidence_wins", "web", 1, 80⟩
    "T2"
    [("email", Json.obj [("value", Json.str "a@x.com"),
      ("source", Json.str "cv"), ("timestamp", Json.str "T"),
      ("confidence", Json.num 1), ("conflicts", Json.arr [])])]
    "email" (Json.str "a@x.com") "cv" "T" 1 [] (Json.str "b@x.com")
    rfl (by decide) (by decide) (by decide)

/-- Counterexample to C3: the existing node at key `a` is a Field leaf
and the incoming value is a mapping, which is outside the four handled
combinations — yet the merge does not skip: it recurses into the Field
dict itself and inserts the transformed key `b` into the Field record. -/
theorem C3_shape_mismatch_cex :
    mergeKey (fun _ _ => 0) ⟨"primary_wins", "web", 1, 80⟩ "T2"
        [("a", Json.obj [("value", Json.str "x"), ("source", Json.str "cv"),
          ("timestamp", Json.str "T"), ("confidence", Json.num 1),
          ("conflicts", Json.arr [])])]
        "a" (Json.obj [("b", Json.num 1)])
      = [("a", Json.obj [("value", Json.str "x"), ("source", Json.str "cv"),
          ("timestamp", Json.str "T"), ("confidence", Json.num 1),
          ("conflicts", Json.arr []),
          ("b", Json.obj [("value", Json.num 1), ("source", Json.str "web"),
            ("timestamp", Json.str "T2"), ("confidence", Json.num 1),
            ("conflicts", Json.arr [])])])]
    ∧ mergeKey (fun _ _ => 0) ⟨"primary_wins", "web", 1, 80⟩ "T2"
        [("a", Json.obj [("value", Json.str "x"), ("source", Json.str "cv"),
          ("timestamp", Json.str "T"), ("confidence", Json.num 1),
          ("conflicts", Json.arr [])])]
        "a" (Json.obj [("b", Json.num 1)])
      ≠ [("a", Json.obj [("value", Json.str "x"), ("source", Json.str "cv"),
          ("timestamp", Json.str "T"), ("confidence", Json.num 1),
          ("conflicts", Json.arr [])])] := by
  constructor <;> decide

/-- C3 (amended): the silent skip covers exactly the mismatches not
involving a `value`-carrying mapping: an existing sequence with an
incoming scalar or mapping, and an existing mapping *without* a `value`
key with an incoming scalar or sequence, are left entirely unchanged with
nothing inserted and no error.  (An existing mapping *with* a `value` key
— a Field leaf — is instead recursed into by an incoming mapping, and
handed to the conflict resolver by an incoming sequence.) -/
theorem C3_silent_skip (fz : String → String → Nat) (cfg : Cfg) (ts : String)
    (merged : List (String × Json)) (key : String) (node newValue : Json)
    (hlook : lookupKey merged key = some node)
    (hcase :
      ((∃ xs, node = Json.arr xs)
        ∧ (isScalar newValue = true ∨ ∃ nk, newValue = Json.obj nk))
      ∨ ((∃ mk, node = Json.obj mk ∧ hasKey mk "value" = false)
        ∧ (isScalar newValue = true ∨ ∃ xs, newValue = Json.arr xs))) :
    mergeKey fz cfg ts merged key newValue = merged := by
  rcases hcase with ⟨⟨xs, hn⟩, hv⟩ | ⟨⟨mk, hn, hval⟩, hv⟩ <;> subst hn
  · rcases hv with hs | ⟨nk, hv⟩
    · cases newValue <;> simp_all [mergeKey, scalarBranch, isScalar]
    · subst hv; simp [mergeKey, scalarBranch, hlook]
  · rcases hv with hs | ⟨axs, hv⟩
    · cases newValue <;> simp_all [mergeKey, scalarBranch, isScalar]
    · subst hv; simp [mergeKey, scalarBranch, hlook, hval]

/-- Witness for C3 (amended): an existing sequence and an incoming scalar
are skipped silently. -/
theorem C3_silent_skip_w :
    lookupKey [("xs", Json.arr [Json.num 1])] "xs" = some (Json.arr [Json.num 1])
    ∧ mergeKey (fun _ _ => 0) ⟨"primary_wins", "web", 1, 80⟩ "T2"
        [("xs", Json.arr [Json.num 1])] "xs" (Json.num 7)
      = [("xs", Json.arr [Json.num 1])] :=
  ⟨by decide,
   C3_silent_skip (fun _ _ => 0) ⟨"primary_wins", "web", 1, 80⟩ "T2"
     [("xs", Json.arr [Json.num 1])] "xs" (Json.arr [Json.num 1]) (Json.num 7)
     (by decide) (Or.inl ⟨⟨[Json.num 1], rfl⟩, Or.inl (by decide)⟩)⟩

mutual

/-- A reconciled tree with no sequence nodes outside Field conflict
histories: every node is a Field or a mapping (with unique keys) of such
trees. -/
def listFreeWF : Json → Bool
  | Json.obj kvs => isFieldKVs kvs || (uniqKeys kvs && listFreeKVs kvs)
  | _ => false

def listFreeKVs : List (String × Json) → Bool
  | [] => true
  | (_, v) :: rest => listFreeWF v && listFreeKVs rest

end

theorem listFreeKVs_mem {kvs : List (String × Json)}
    (h : listFreeKVs kvs = true) {p : String × Json} (hp : p ∈ kvs) :
    listFreeWF p.2 = true := by
  induction kvs with
  | nil => cases hp
  | cons q rest ih =>
      obtain ⟨k, v⟩ := q
      simp only [listFreeKVs, Bool.and_eq_true] at h
      rcases List.mem_cons.mp hp with h1 | h1
      · subst h1; exact h.1
      · exact ih h.2 h1

theorem lookup_of_mem_uniq {kvs : List (String × Json)} {k : String} {v : Json}
    (hu : uniqKeys kvs = true) (hm : (k, v) ∈ kvs) :
    lookupKey kvs k = some v := by
  induction kvs with
  | nil => cases hm
  | cons q rest ih =>
      obtain ⟨k', v'⟩ := q
      simp only [uniqKeys, List.map_cons, List.nodup_cons, decide_eq_true_eq] at hu
      rcases List.mem_cons.mp hm with h1 | h1
      · rw [Prod.mk.injEq] at h1
        simp [lookupKey, h1.1.symm, h1.2]
      · have hk : k' ≠ k := by
          intro he; subst he
          exact hu.1 (List.mem_map.mpr ⟨(k', v), h1, rfl⟩)
        simp only [lookupKey, if_neg hk]
        exact ih (by simp [uniqKeys, hu.2]) h1

theorem setKey_self {M : List (String × Json)} {k : String} {x : Json}
    (h : lookupKey M k = some x) : setKey M k x = M := by
  induction M with
  | nil => simp [lookupKey] at h
  | cons q rest ih =>
      obtain ⟨k', v'⟩ := q
      by_cases hk : k' = k
      · subst hk
        simp only [lookupKey, if_true, eq_self_iff_true, Option.some.injEq] at h
        simp [setKey, h]
      · simp only [lookupKey, if_neg hk] at h
        simp [setKey, hk, ih h]

/-- Merging the stripped copy of a list-free well-formed node back into
any position holding that node is a no-op. -/
theorem mergeKey_noop (fz : String → String → Nat) (cfg : Cfg) (ts : String) :
    ∀ j, listFreeWF j = true →
      ∀ M k, lookupKey M k = some j → mergeKey fz cfg ts M k (strip j) = M := by
  intro j
  induction j using json_ind with
  | hnull => intro h; simp [listFreeWF] at h
  | hbool b => intro h; simp [listFreeWF] at h
  | hnum q => intro h; simp [listFreeWF] at h
  | hstr s => intro h; simp [listFreeWF] at h
  | harr xs ih => intro h; simp [listFreeWF] at h
  | hobj kvs ih =>
      intro h M k hlook
      cases hF : isFieldKVs kvs with
      | true =>
          -- Field leaf: strip collapses to the scalar value, the conflict
          -- resolver sees an equal value and leaves the Field untouched.
          have hdef := hF
          unfold isFieldKVs at hdef
          simp only [Bool.and_eq_true, decide_eq_true_eq] at hdef
          obtain ⟨⟨⟨⟨⟨hkeys, hval⟩, hsrc⟩, hts⟩, hconf⟩, hconfl⟩ := hdef
          cases hv : lookupKey kvs "value" with
          | none => rw [hv] at hval; simp at hval
          | some v0 =>
              rw [hv] at hval
              have hstrip : strip (Json.obj kvs) = v0 := by
                simp [strip, hF, hv]
              rw [hstrip]
              have hrc : resolveConflict cfg ts kvs v0 = kvs := by
                simp [resolveConflict, hv]
              have hsk : setKey M k (Json.obj kvs) = M := setKey_self hlook
              have hhk : hasKey kvs "value" = true := by simp [hasKey, hv]
              cases v0 <;> simp_all [mergeKey, scalarBranch, isScalar]
      | false =>
          -- plain mapping: strip maps over the children, the merge
          -- recurses key by key and each key is a no-op by the induction
          -- hypothesis.
          rw [listFreeWF, hF] at h
          simp only [Bool.false_or, Bool.and_eq_true] at h
          obtain ⟨hu, hlf⟩ := h
          have aux : ∀ sub : List (String × Json), (∀ p ∈ sub, p ∈ kvs) →
              merge_sources fz cfg ts kvs (stripKVs sub) = kvs := by
            intro sub
            induction sub with
            | nil => intro _; simp [stripKVs, merge_sources]
            | cons p rest ihs =>
                intro hmem
                obtain ⟨k', v'⟩ := p
                have hmem1 : (k', v') ∈ kvs := hmem _ (by simp)
                have hlk : lookupKey kvs k' = some v' := lookup_of_mem_uniq hu hmem1
                have hone : mergeKey fz cfg ts kvs k' (strip v') = kvs :=
                  ih ⟨k', v'⟩ hmem1 (listFreeKVs_mem hlf hmem1) kvs k' hlk
                simp only [stripKVs, merge_sources, hone]
                exact ihs fun q hq => hmem q (by simp [hq])
          have hstrip : strip (Json.obj kvs) = Json.obj (stripKVs kvs) := by
            simp [strip, hF]
          rw [hstrip]
          simp only [mergeKey, hlook]
          rw [aux kvs fun p hp => hp]
          exact setKey_self hlook

theorem merge_sources_noop (fz : String → String → Nat) (cfg : Cfg) (ts : String)
    (kvs : List (String × Json)) (hu : uniqKeys kvs = true)
    (hlf : listFreeKVs kvs = true) :
    ∀ sub : List (String × Json), (∀ p ∈ sub, p ∈ kvs) →
      merge_sources fz cfg ts kvs (stripKVs sub) = kvs := by
  intro sub
  induction sub with
  | nil => intro _; simp [stripKVs, merge_sources]
  | cons p rest ihs =>
      intro hmem
      obtain ⟨k', v'⟩ := p
      have hmem1 : (k', v') ∈ kvs := hmem _ (by simp)
      have hlk : lookupKey kvs k' = some v' := lookup_of_mem_uniq hu hmem1
      have hone : mergeKey fz cfg ts kvs k' (strip v') = kvs :=
        mergeKey_noop fz cfg ts v' (listFreeKVs_mem hlf hmem1) kvs k' hlk
      simp only [stripKVs, merge_sources, hone]
      exact ihs fun q hq => hmem q (by simp [hq])

/-- Counterexample to C4: merging a source whose raw tree holds exactly
the values already reconciled is *not* a no-op when a list of scalars is
involved: the raw scalar `python` is fuzzily compared against the Python
`str()` rendering of the whole existing Field dict, finds no match, and is
appended as a duplicate element.  (`fz` is a legitimate scorer —
`similarity(x, x) = 100`, symmetric — mirroring that `fuzz.ratio` scores
these two very different strings far below the 80 threshold.) -/
theorem C4_noop_merge_cex :
    stripKVs [("skills", Json.arr [Json.obj [("value", Json.str "python"),
        ("source", Json.str "cv"), ("timestamp", Json.str "T"),
        ("confidence", Json.num 1), ("conflicts", Json.arr [])]])]
      = [("skills", Json.arr [Json.str "python"])]
    ∧ merge_sources (fun a b => if a = b then 100 else 0)
        ⟨"primary_wins", "web", 1, 80⟩ "T2"
        [("skills", Json.arr [Json.obj [("value", Json.str "python"),
          ("source", Json.str "cv"), ("timestamp", Json.str "T"),
          ("confidence", Json.num 1), ("conflicts", Json.arr [])]])]
        [("skills", Json.arr [Json.str "python"])]
      = [("skills", Json.arr [Json.obj [("value", Json.str "python"),
          ("source", Json.str "cv"), ("timestamp", Json.str "T"),
          ("confidence", Json.num 1), ("conflicts", Json.arr [])],
          Json.obj [("value", Json.str "python"),
          ("source", Json.str "web"), ("timestamp", Json.str "T2"),
          ("confidence", Json.num 1), ("conflicts", Json.arr [])]])]
    ∧ merge_sources (fun a b => if a = b then 100 else 0)
        ⟨"primary_wins", "web", 1, 80⟩ "T2"
        [("skills", Json.arr [Json.obj [("value", Json.str "python"),
          ("source", Json.str "cv"), ("timestamp", Json.str "T"),
          ("confidence", Json.num 1), ("conflicts", Json.arr [])]])]
        [("skills", Json.arr [Json.str "python"])]
      ≠ [("skills", Json.arr [Json.obj [("value", Json.str "python"),
          ("source", Json.str "cv"), ("timestamp", Json.str "T"),
          ("confidence", Json.num 1), ("conflicts", Json.arr [])]])] := by
  refine ⟨by decide, by decide, by decide⟩

/-- C4 (amended): restricted to reconciled trees without sequence nodes
(every node a Field or a mapping of such nodes), merging the source
holding exactly the already-present values is a no-op: the whole tree —
every Field's value, source, timestamp, confidence and conflicts — is
unchanged, for any scorer, strategy and configuration. -/
theorem C4_noop_merge (fz : String → String → Nat) (cfg : Cfg) (ts : String)
    (kvs : List (String × Json)) (hu : uniqKeys kvs = true)
    (hlf : listFreeKVs kvs = true) :
    merge_sources fz cfg ts kvs (stripKVs kvs) = kvs :=
  merge_sources_noop fz cfg ts kvs hu hlf kvs fun _ hp => hp

/-- Witness for C4 (amended) on a two-field tree. -/
theorem C4_noop_merge_w :
    uniqKeys [("name", Json.obj [("value", Json.str "Ada"),
        ("source", Json.str "cv"), ("timestamp", Json.str "T"),
        ("confidence", Json.num 1), ("conflicts", Json.arr [])]),
      ("info", Json.obj [("email", Json.obj [("value", Json.str "a@x.com"),
        ("source", Json.str "cv"), ("timestamp", Json.str "T"),
        ("confidence", Json.num 1), ("conflicts", Json.arr [])])])] = true
    ∧ listFreeKVs [("name", Json.obj [("value", Json.str "Ada"),
        ("source", Json.str "cv"), ("timestamp", Json.str "T"),
        ("confidence", Json.num 1), ("conflicts", Json.arr [])]),
      ("info", Json.obj [("email", Json.obj [("value", Json.str "a@x.com"),
        ("source", Json.str "cv"), ("timestamp", Json.str "T"),
        ("confidence", Json.num 1), ("conflicts", Json.arr [])])])] = true
    ∧ merge_sources (fun a b => if a = b then 100 else 0)
        ⟨"primary_wins", "web", 1, 80⟩ "T2"
        [("name", Json.obj [("value", Json.str "Ada"),
          ("source", Json.str "cv"), ("timestamp", Json.str "T"),
          ("confidence", Json.num 1), ("conflicts", Json.arr [])]),
        ("info", Json.obj [("email", Json.obj [("value", Json.str "a@x.com"),
          ("source", Json.str "cv"), ("timestamp", Json.str "T"),
          ("confidence", Json.num 1), ("conflicts", Json.arr [])])])]
        (stripKVs [("name", Json.obj [("value", Json.str "Ada"),
          ("source", Json.str "cv"), ("timestamp", Json.str "T"),
          ("confidence", Json.num 1), ("conflicts", Json.arr [])]),
        ("info", Json.obj [("email", Json.obj [("value", Json.str "a@x.com"),
          ("source", Json.str "cv"), ("timestamp", Json.str "T"),
          ("confidence", Json.num 1), ("conflicts", Json.arr [])])])])
      = [("name", Json.obj [("value", Json.str "Ada"),
          ("source", Json.str "cv"), ("timestamp", Json.str "T"),
          ("confidence", Json.num 1), ("conflicts", Json.arr [])]),
        ("info", Json.obj [("email", Json.obj [("value", Json.str "a@x.com"),
          ("source", Json.str "cv"), ("timestamp", Json.str "T"),
          ("confidence", Json.num 1), ("conflicts", Json.arr [])])])] :=
  ⟨by decide, by decide,
   C4_noop_merge (fun a b => if a = b then 100 else 0)
     ⟨"primary_wins", "web", 1, 80⟩ "T2" _ (by decide) (by decide)⟩

/-- Counterexample to C6: for the unregistered item type `projects`,
fuzzy similarity matching *is* attempted (on the Python `str()` renderings
of the whole items): an incoming element that does not equal any existing
element (values `Websitee` vs `Website`) is nevertheless matched at a
similarity of 60 against threshold 60 and merged into the existing
element, recording a conflict — it is neither structurally equal nor
appended as a new entity (list length stays 1). -/
theorem C6_no_fuzzy_cex :
    mergeItems (fun a b => if a = b then 100 else 60)
        ⟨"primary_wins", "web", 1, 60⟩ "T2" "projects"
        [Json.obj [("name", Json.obj [("value", Json.str "Website"),
          ("source", Json.str "cv"), ("timestamp", Json.str "T"),
          ("confidence", Json.num 1), ("conflicts", Json.arr [])])]]
        [Json.obj [("name", Json.str "Websitee")]] []
      = [Json.obj [("name", Json.obj [("value", Json.str "Website"),
          ("source", Json.str "cv"), ("timestamp", Json.str "T"),
          ("confidence", Json.num 1),
          ("conflicts", Json.arr [Json.obj [("value", Json.str "Websitee"),
            ("source", Json.str "web"), ("timestamp", Json.str "T2"),
            ("confidence", Json.num 1), ("conflicts", Json.arr [])]])])]]
    ∧ Json.obj [("name", Json.str "Websitee")]
        ≠ Json.obj [("name", Json.obj [("value", Json.str "Website"),
          ("source", Json.str "cv"), ("timestamp", Json.str "T"),
          ("confidence", Json.num 1), ("conflicts", Json.arr [])])] := by
  refine ⟨by decide, by decide⟩

/-- C6 (amended): for list elements whose item type has no registered
identity fields (every key other than `work_experience` and `education`),
the comparison string is the Python `str()` rendering of the whole item —
no identity-field extraction happens — and the very same fuzzy-similarity
threshold matching is applied to those renderings as for registered types;
correspondence is *not* restricted to structural equality. -/
theorem C6_comparison_is_whole_item (item : Json) (key : String)
    (h1 : key ≠ "work_experience") (h2 : key ≠ "education") :
    get_comparison_string item key = pyStr item := by
  cases item <;> simp [get_comparison_string, h1, h2]

/-- Witness for C6 (amended): the comparison string of a dict item under
`skills` is its whole-item Python rendering. -/
theorem C6_comparison_is_whole_item_w :
    ("skills" : String) ≠ "work_experience" ∧ ("skills" : String) ≠ "education"
    ∧ get_comparison_string (Json.obj [("name", Json.str "X")]) "skills"
        = pyStr (Json.obj [("name", Json.str "X")]) :=
  ⟨by decide, by decide,
   C6_comparison_is_whole_item (Json.obj [("name", Json.str "X")]) "skills"
     (by decide) (by decide)⟩

/-- Counterexample to C10: an incoming non-mapping element whose best
similarity score (100) meets the threshold (80) is *not* discarded when
the best-matching existing element is falsy (here the empty mapping, whose
Python rendering equals the incoming string): the truthiness guard fails
and the element is transformed and appended instead. -/
theorem C10_nondict_discard_cex :
    mergeItems (fun a b => if a = b then 100 else 0)
        ⟨"primary_wins", "web", 1, 80⟩ "T2" "skills"
        [Json.obj []] [Json.str "\x7b\x7d"] []
      = [Json.obj [], Json.obj [("value", Json.str "\x7b\x7d"),
          ("source", Json.str "web"), ("timestamp", Json.str "T2"),
          ("confidence", Json.num 1), ("conflicts", Json.arr [])]] := by
  decide

/-- C10 (amended): when an incoming list element is not a mapping and the
best-match scan yields a *truthy* existing element with a (necessarily
positive) score meeting the threshold, the incoming element is silently
discarded: it is neither merged into the matched element nor appended,
the existing list is unchanged, and no conflict entry is recorded
anywhere. -/
theorem C10_nondict_discard (fz : String → String → Nat) (cfg : Cfg)
    (ts : String) (key : String) (existing : List Json) (item : Json)
    (rest unmatched : List Json) (i bestScore : Nat) (node : Json)
    (hbest : bestMatchAux
        (fun e => fz (get_comparison_string item key) (get_comparison_string e key))
        existing 0 0 none = (bestScore, some (i, node)))
    (htr : pyTruthy node = true)
    (hthr : cfg.threshold ≤ (bestScore : Rat))
    (hnd : isScalar item = true ∨ ∃ xs, item = Json.arr xs) :
    mergeItems fz cfg ts key existing (item :: rest) unmatched
      = mergeItems fz cfg ts key existing rest unmatched := by
  rcases hnd with hs | ⟨xs, hx⟩
  · cases item <;> simp only [isScalar, Bool.false_eq_true] at hs <;>
      simp [mergeItems, hbest, htr, hthr]
  · subst hx
    simp [mergeItems, hbest, htr, hthr]

/-- Witness for C10 (amended): a scalar incoming element matching a truthy
existing element at score 100 is dropped, leaving the state unchanged. -/
theorem C10_nondict_discard_w :
    bestMatchAux (fun e => (fun _ _ => 100)
        (get_comparison_string (Json.str "python") "skills")
        (get_comparison_string e "skills"))
        [Json.obj [("value", Json.str "python")]] 0 0 none
      = (100, some (0, Json.obj [("value", Json.str "python")]))
    ∧ pyTruthy (Json.obj [("value", Json.str "python")]) = true
    ∧ ((80 : Rat) ≤ ((100 : Nat) : Rat))
    ∧ mergeItems (fun _ _ => 100) ⟨"primary_wins", "web", 1, 80⟩ "T2" "skills"
        [Json.obj [("value", Json.str "python")]] [Json.str "python"] []
      = mergeItems (fun _ _ => 100) ⟨"primary_wins", "web", 1, 80⟩ "T2" "skills"
        [Json.obj [("value", Json.str "python")]] [] [] :=
  ⟨by decide, by decide, by decide,
   C10_nondict_discard (fun _ _ => 100) ⟨"primary_wins", "web", 1, 80⟩ "T2"
     "skills" [Json.obj [("value", Json.str "python")]] (Json.str "python")
     [] [] 0 100 (Json.obj [("value", Json.str "python")])
     (by decide) (by decide) (by decide) (Or.inl (by decide))⟩

theorem bestMatchAux_no_improve (scoreOf : Json → Nat) :
    ∀ (l : List Json) (idx bs : Nat) (cur : Option (Nat × Json)),
    (∀ x ∈ l, scoreOf x ≤ bs) →
    bestMatchAux scoreOf l idx bs cur = (bs, cur) := by
  intro l
  induction l with
  | nil => intro idx bs cur _; simp [bestMatchAux]
  | cons x xs ih =>
      intro idx bs cur h
      have hx : ¬ scoreOf x > bs := not_lt.mpr (h x (by simp))
      simp only [bestMatchAux, if_neg hx]
      exact ih (idx + 1) bs cur fun y hy => h y (by simp [hy])

theorem bestMatchAux_first_max (scoreOf : Json → Nat) :
    ∀ (l : List Json) (i : Nat) (hi : i < l.length) (idx bs : Nat)
      (cur : Option (Nat × Json)),
    (∀ j (hj : j < l.length), scoreOf (l.get ⟨j, hj⟩) ≤ scoreOf (l.get ⟨i, hi⟩)) →
    (∀ j (hj : j < i), scoreOf (l.get ⟨j, Nat.lt_trans hj hi⟩) < scoreOf (l.get ⟨i, hi⟩)) →
    bs < scoreOf (l.get ⟨i, hi⟩) →
    bestMatchAux scoreOf l idx bs cur
      = (scoreOf (l.get ⟨i, hi⟩), some (idx + i, l.get ⟨i, hi⟩)) := by
  intro l
  induction l with
  | nil => intro i hi; exact absurd hi (by simp)
  | cons x xs ih =>
      intro i hi idx bs cur hmax hfirst hbs
      cases i with
      | zero =>
          simp only [bestMatchAux, if_pos (show scoreOf x > bs from hbs)]
          have hni : ∀ y ∈ xs, scoreOf y ≤ scoreOf x := by
            intro y hy
            obtain ⟨⟨j, hj⟩, hget⟩ := List.mem_iff_get.mp hy
            have h2 := hmax (j + 1) (by simpa using Nat.succ_lt_succ hj)
            have h3 : scoreOf (xs.get ⟨j, hj⟩) ≤ scoreOf x := by simpa using h2
            rw [hget] at h3
            exact h3
          rw [bestMatchAux_no_improve scoreOf xs (idx + 1) (scoreOf x) (some (idx, x)) hni]
          rfl
      | succ j =>
          have hj : j < xs.length := by simpa using hi
          have hget : (x :: xs).get ⟨j + 1, hi⟩ = xs.get ⟨j, hj⟩ := rfl
          rw [hget] at hmax hfirst hbs ⊢
          have hxlt : scoreOf x < scoreOf (xs.get ⟨j, hj⟩) := by
            have h0 := hfirst 0 (Nat.succ_pos j)
            simpa using h0
          have hmax' : ∀ m (hm : m < xs.length),
              scoreOf (xs.get ⟨m, hm⟩) ≤ scoreOf (xs.get ⟨j, hj⟩) := by
            intro m hm
            have h2 := hmax (m + 1) (by simpa using Nat.succ_lt_succ hm)
            simpa using h2
          have hfirst' : ∀ m (hm : m < j),
              scoreOf (xs.get ⟨m, Nat.lt_trans hm hj⟩) < scoreOf (xs.get ⟨j, hj⟩) := by
            intro m hm
            have h2 := hfirst (m + 1) (Nat.succ_lt_succ hm)
            simpa using h2
          have hidx : idx + 1 + j = idx + (j + 1) := by omega
          by_cases hx : scoreOf x > bs
          · simp only [bestMatchAux, if_pos hx]
            rw [ih j hj (idx + 1) (scoreOf x) (some (idx, x)) hmax' hfirst' hxlt, hidx]
          · simp only [bestMatchAux, if_neg hx]
            rw [ih j hj (idx + 1) bs cur hmax' hfirst' hbs, hidx]

/-- Counterexample to C2: an incoming *empty* mapping scores 100 (its
rendering `\x7b\x7d` equals the existing empty mapping's) against threshold 80,
so by the claim it should merge into the matched element leaving the
length unchanged — but Python's truthiness guard (`if best_match_node`)
rejects the falsy empty dict and the element is appended instead,
growing the list to length 2. -/
theorem C2_list_correspondence_cex :
    bestMatchAux (fun e => (fun a b => if a = b then 100 else 0)
        (get_comparison_string (Json.obj []) "skills")
        (get_comparison_string e "skills")) [Json.obj []] 0 0 none
      = (100, some (0, Json.obj []))
    ∧ ((80 : Rat) ≤ ((100 : Nat) : Rat))
    ∧ mergeItems (fun a b => if a = b then 100 else 0)
        ⟨"primary_wins", "web", 1, 80⟩ "T2" "skills"
        [Json.obj []] [Json.obj []] []
      = [Json.obj [], Json.obj []] := by
  refine ⟨by decide, by decide, by decide⟩

/-- The body applied to a matched item in the list-correspondence loop:
a mapping item is merged into a mapping match in place; any other shape
combination leaves the state unchanged (the incoming item is dropped). -/
def itemStep (fz : String → String → Nat) (cfg : Cfg) (ts key : String)
    (existing : List Json) (rest unmatched : List Json) (i : Nat) :
    Json → Json → List Json
  | Json.obj ikvs, Json.obj nkvs =>
      mergeItems fz cfg ts key
        (existing.set i (Json.obj (merge_sources fz cfg ts nkvs ikvs)))
        rest unmatched
  | _, _ => mergeItems fz cfg ts key existing rest unmatched

/-- One step of the list-correspondence loop, with the best-match scan's
result abstracted. -/
theorem mergeItems_cons_eq (fz : String → String → Nat) (cfg : Cfg)
    (ts key : String) (existing : List Json) (item : Json)
    (rest unmatched : List Json) (bs i : Nat) (node : Json)
    (hb : bestMatchAux
        (fun e => fz (get_comparison_string item key) (get_comparison_string e key))
        existing 0 0 none = (bs, some (i, node))) :
    mergeItems fz cfg ts key existing (item :: rest) unmatched
      = if pyTruthy node ∧ cfg.threshold ≤ (bs : Rat) then
          itemStep fz cfg ts key existing rest unmatched i item node
        else mergeItems fz cfg ts key existing rest (unmatched ++ [item]) := by
  conv_lhs => rw [mergeItems]
  rw [hb]
  cases item <;> cases node <;> rfl

theorem mergeItems_cons_none (fz : String → String → Nat) (cfg : Cfg)
    (ts key : String) (existing : List Json) (item : Json)
    (rest unmatched : List Json) (bs : Nat)
    (hb : bestMatchAux
        (fun e => fz (get_comparison_string item key) (get_comparison_string e key))
        existing 0 0 none = (bs, none)) :
    mergeItems fz cfg ts key existing (item :: rest) unmatched
      = mergeItems fz cfg ts key existing rest (unmatched ++ [item]) := by
  conv_lhs => rw [mergeItems]
  rw [hb]

/-- C2 (amended): for an incoming mapping element, the scan selects the
*first* existing element attaining the maximal similarity score; if some
score is positive, that element is truthy, and the best score meets the
threshold, the incoming element is merged recursively into it in place
(list length unchanged); if the best score is positive but the
truthy/threshold test fails, or no score is positive at all, the element
is held as unmatched; after the loop every unmatched element is
transformed fresh and appended, growing the list by exactly one per
unmatched element. -/
theorem C2_list_correspondence (fz : String → String → Nat) (cfg : Cfg)
    (ts key : String) (existing : List Json) (ikvs : List (String × Json))
    (rest unmatched : List Json) (i : Nat) (hi : i < existing.length)
    (hmax : ∀ j (hj : j < existing.length),
      fz (get_comparison_string (Json.obj ikvs) key)
          (get_comparison_string (existing.get ⟨j, hj⟩) key)
        ≤ fz (get_comparison_string (Json.obj ikvs) key)
          (get_comparison_string (existing.get ⟨i, hi⟩) key))
    (hfirst : ∀ j (hj : j < i),
      fz (get_comparison_string (Json.obj ikvs) key)
          (get_comparison_string (existing.get ⟨j, Nat.lt_trans hj hi⟩) key)
        < fz (get_comparison_string (Json.obj ikvs) key)
          (get_comparison_string (existing.get ⟨i, hi⟩) key)) :
    (∀ nkvs, existing.get ⟨i, hi⟩ = Json.obj nkvs →
      0 < fz (get_comparison_string (Json.obj ikvs) key)
          (get_comparison_string (existing.get ⟨i, hi⟩) key) →
      pyTruthy (Json.obj nkvs) = true →
      cfg.threshold ≤ ((fz (get_comparison_string (Json.obj ikvs) key)
          (get_comparison_string (existing.get ⟨i, hi⟩) key) : Nat) : Rat) →
      mergeItems fz cfg ts key existing (Json.obj ikvs :: rest) unmatched
        = mergeItems fz cfg ts key
            (existing.set i (Json.obj (merge_sources fz cfg ts nkvs ikvs)))
            rest unmatched
      ∧ (existing.set i (Json.obj (merge_sources fz cfg ts nkvs ikvs))).length
          = existing.length)
    ∧ (0 < fz (get_comparison_string (Json.obj ikvs) key)
          (get_comparison_string (existing.get ⟨i, hi⟩) key) →
      ¬(pyTruthy (existing.get ⟨i, hi⟩) = true
        ∧ cfg.threshold ≤ ((fz (get_comparison_string (Json.obj ikvs) key)
            (get_comparison_string (existing.get ⟨i, hi⟩) key) : Nat) : Rat)) →
      mergeItems fz cfg ts key existing (Json.obj ikvs :: rest) unmatched
        = mergeItems fz cfg ts key existing rest (unmatched ++ [Json.obj ikvs]))
    ∧ (fz (get_comparison_string (Json.obj ikvs) key)
          (get_comparison_string (existing.get ⟨i, hi⟩) key) = 0 →
      mergeItems fz cfg ts key existing (Json.obj ikvs :: rest) unmatched
        = mergeItems fz cfg ts key existing rest (unmatched ++ [Json.obj ikvs]))
    ∧ (mergeItems fz cfg ts key existing [] unmatched
        = existing
          ++ unmatched.map (transform_to_merged_format cfg.srcName cfg.newConfidence ts)
      ∧ (mergeItems fz cfg ts key existing [] unmatched).length
          = existing.length + unmatched.length) := by
  refine ⟨?_, ?_, ?_, ?_, ?_⟩
  · intro nkvs hget hpos htr hthr
    have hb := bestMatchAux_first_max
      (fun e => fz (get_comparison_string (Json.obj ikvs) key)
        (get_comparison_string e key)) existing i hi 0 0 none hmax hfirst hpos
    have hstep := mergeItems_cons_eq fz cfg ts key existing (Json.obj ikvs)
      rest unmatched _ _ _ hb
    have hthr' : cfg.threshold ≤ ((fz (get_comparison_string (Json.obj ikvs) key)
        (get_comparison_string (Json.obj nkvs) key) : Nat) : Rat) := by
      rw [← hget]; exact hthr
    rw [hstep, hget, if_pos ⟨htr, hthr'⟩]
    constructor
    · simp [itemStep, Nat.zero_add]
    · exact List.length_set existing i _
  · intro hpos hneg
    have hb := bestMatchAux_first_max
      (fun e => fz (get_comparison_string (Json.obj ikvs) key)
        (get_comparison_string e key)) existing i hi 0 0 none hmax hfirst hpos
    have hstep := mergeItems_cons_eq fz cfg ts key existing (Json.obj ikvs)
      rest unmatched _ _ _ hb
    rw [hstep, if_neg hneg]
  · intro hz
    have hni : ∀ y ∈ existing,
        (fun e => fz (get_comparison_string (Json.obj ikvs) key)
          (get_comparison_string e key)) y ≤ 0 := by
      intro y hy
      obtain ⟨⟨j, hj⟩, hget⟩ := List.mem_iff_get.mp hy
      have h2 := hmax j hj
      rw [hz] at h2
      have h3 : fz (get_comparison_string (Json.obj ikvs) key)
          (get_comparison_string (existing.get ⟨j, hj⟩) key) ≤ 0 := h2
      rw [hget] at h3
      exact h3
    have hb := bestMatchAux_no_improve
      (fun e => fz (get_comparison_string (Json.obj ikvs) key)
        (get_comparison_string e key)) existing 0 0 none hni
    exact mergeItems_cons_none fz cfg ts key existing (Json.obj ikvs)
      rest unmatched _ hb
  · simp [mergeItems]
  · simp [mergeItems]

/-- Witness for C2 (amended), first arm: a positive best score at index 0,
truthy match, threshold met — the incoming mapping is merged in place and
the length is unchanged. -/
theorem C2_list_correspondence_w :
    (0 : Nat) < 1
    ∧ mergeItems (fun _ _ => 70) ⟨"primary_wins", "web", 1, 60⟩ "T2" "skills"
        [Json.obj [("name", Json.str "py")]] [Json.obj [("tag", Json.str "x")]] []
      = mergeItems (fun _ _ => 70) ⟨"primary_wins", "web", 1, 60⟩ "T2" "skills"
        ([Json.obj [("name", Json.str "py")]].set 0
          (Json.obj (merge_sources (fun _ _ => 70) ⟨"primary_wins", "web", 1, 60⟩ "T2"
            [("name", Json.str "py")] [("tag", Json.str "x")]))) [] []
    ∧ ([Json.obj [("name", Json.str "py")]].set 0
        (Json.obj (merge_sources (fun _ _ => 70) ⟨"primary_wins", "web", 1, 60⟩ "T2"
          [("name", Json.str "py")] [("tag", Json.str "x")]))).length
      = [Json.obj [("name", Json.str "py")]].length := by
  have h := (C2_list_correspondence (fun _ _ => 70) ⟨"primary_wins", "web", 1, 60⟩
    "T2" "skills" [Json.obj [("name", Json.str "py")]] [("tag", Json.str "x")]
    [] [] 0 (by decide) (by decide) (by decide)).1
    [("name", Json.str "py")] rfl (by decide) (by decide) (by decide)
  exact ⟨by decide, h.1, h.2⟩

theorem grows_refl : ∀ j : Json, Grows j j := by
  intro j
  induction j using json_ind with
  | hnull => simp [Grows]
  | hbool b => simp [Grows]
  | hnum q => simp [Grows]
  | hstr s => simp [Grows]
  | harr xs ih =>
      simp only [Grows]
      induction xs with
      | nil => simp [GrowsList]
      | cons x rest ihr =>
          exact ⟨ih x (by simp), ihr fun y hy => ih y (by simp [hy])⟩
  | hobj kvs ih =>
      simp only [Grows]
      induction kvs with
      | nil => simp [GrowsKVs]
      | cons p rest ihr =>
          obtain ⟨k, v⟩ := p
          exact ⟨rfl, ih ⟨k, v⟩ (by simp), ihr fun q hq => ih q (by simp [hq])⟩

theorem growsList_refl (l : List Json) : GrowsList l l := by
  induction l with
  | nil => simp [GrowsList]
  | cons x rest ih => exact ⟨grows_refl x, ih⟩

theorem growsKVs_refl (kvs : List (String × Json)) : GrowsKVs kvs kvs := by
  induction kvs with
  | nil => simp [GrowsKVs]
  | cons p rest ih => obtain ⟨k, v⟩ := p; exact ⟨rfl, grows_refl v, ih⟩

theorem growsList_append (l e : List Json) : GrowsList l (l ++ e) := by
  induction l with
  | nil => simp [GrowsList]
  | cons x rest ih => exact ⟨grows_refl x, ih⟩

theorem growsKVs_append (kvs e : List (String × Json)) : GrowsKVs kvs (kvs ++ e) := by
  induction kvs with
  | nil => simp [GrowsKVs]
  | cons p rest ih => obtain ⟨k, v⟩ := p; exact ⟨rfl, grows_refl v, ih⟩

theorem growsList_trans_aux : ∀ (xs bs cs : List Json),
    (∀ x ∈ xs, ∀ b c, Grows x b → Grows b c → Grows x c) →
    GrowsList xs bs → GrowsList bs cs → GrowsList xs cs := by
  intro xs
  induction xs with
  | nil => intro bs cs _ _ _; simp [GrowsList]
  | cons x rest ih =>
      intro bs cs htr h1 h2
      cases bs with
      | nil => simp [GrowsList] at h1
      | cons y ys =>
          cases cs with
          | nil => simp [GrowsList] at h2
          | cons z zs =>
              obtain ⟨hxy, hrest1⟩ := h1
              obtain ⟨hyz, hrest2⟩ := h2
              exact ⟨htr x (by simp) y z hxy hyz,
                ih ys zs (fun q hq => htr q (by simp [hq])) hrest1 hrest2⟩

theorem growsKVs_trans_aux : ∀ (xs bs cs : List (String × Json)),
    (∀ p ∈ xs, ∀ b c, Grows p.2 b → Grows b c → Grows p.2 c) →
    GrowsKVs xs bs → GrowsKVs bs cs → GrowsKVs xs cs := by
  intro xs
  induction xs with
  | nil => intro bs cs _ _ _; simp [GrowsKVs]
  | cons p rest ih =>
      obtain ⟨k, v⟩ := p
      intro bs cs htr h1 h2
      cases bs with
      | nil => simp [GrowsKVs] at h1
      | cons q ys =>
          obtain ⟨k2, w⟩ := q
          cases cs with
          | nil => simp [GrowsKVs] at h2
          | cons r zs =>
              obtain ⟨k3, u⟩ := r
              obtain ⟨hk1, hvw, hrest1⟩ := h1
              obtain ⟨hk2, hwu, hrest2⟩ := h2
              exact ⟨hk2.trans hk1, htr ⟨k, v⟩ (by simp) w u hvw hwu,
                ih ys zs (fun q2 hq => htr q2 (by simp [hq])) hrest1 hrest2⟩

theorem grows_trans : ∀ a b c : Json, Grows a b → Grows b c → Grows a c := by
  intro a
  induction a using json_ind with
  | hnull => intro b c h1 h2; simp only [Grows] at h1; subst h1; exact h2
  | hbool x => intro b c h1 h2; simp only [Grows] at h1; subst h1; exact h2
  | hnum x => intro b c h1 h2; simp only [Grows] at h1; subst h1; exact h2
  | hstr x => intro b c h1 h2; simp only [Grows] at h1; subst h1; exact h2
  | harr xs ih =>
      intro b c h1 h2
      cases b with
      | arr bs =>
          cases c with
          | arr cs =>
              simp only [Grows] at h1 h2 ⊢
              exact growsList_trans_aux xs bs cs (fun x hx => ih x hx) h1 h2
          | null => simp [Grows] at h2
          | bool y => simp [Grows] at h2
          | num y => simp [Grows] at h2
          | str y => simp [Grows] at h2
          | obj y => simp [Grows] at h2
      | null => simp [Grows] at h1
      | bool y => simp [Grows] at h1
      | num y => simp [Grows] at h1
      | str y => simp [Grows] at h1
      | obj y => simp [Grows] at h1
  | hobj kvs ih =>
      intro b c h1 h2
      cases b with
      | obj bs =>
          cases c with
          | obj cs =>
              simp only [Grows] at h1 h2 ⊢
              exact growsKVs_trans_aux kvs bs cs (fun p hp => ih p hp) h1 h2
          | null => simp [Grows] at h2
          | bool y => simp [Grows] at h2
          | num y => simp [Grows] at h2
          | str y => simp [Grows] at h2
          | arr y => simp [Grows] at h2
      | null => simp [Grows] at h1
      | bool y => simp [Grows] at h1
      | num y => simp [Grows] at h1
      | str y => simp [Grows] at h1
      | arr y => simp [Grows] at h1

theorem growsList_trans {a b c : List Json} (h1 : GrowsList a b)
    (h2 : GrowsList b c) : GrowsList a c :=
  growsList_trans_aux a b c (fun x _ => grows_trans x) h1 h2

theorem growsKVs_trans {a b c : List (String × Json)} (h1 : GrowsKVs a b)
    (h2 : GrowsKVs b c) : GrowsKVs a c :=
  growsKVs_trans_aux a b c (fun p _ => grows_trans p.2) h1 h2

theorem growsKVs_setKey {m : List (String × Json)} {k : String} {v w : Json}
    (hlook : lookupKey m k = some v) (hvw : Grows v w) :
    GrowsKVs m (setKey m k w) := by
  induction m with
  | nil => simp [lookupKey] at hlook
  | cons p rest ih =>
      obtain ⟨k', v'⟩ := p
      by_cases hk : k' = k
      · subst hk
        simp only [lookupKey, if_true, eq_self_iff_true, Option.some.injEq] at hlook
        subst hlook
        simp only [setKey, if_true, eq_self_iff_true]
        exact ⟨rfl, hvw, growsKVs_refl rest⟩
      · simp only [lookupKey, if_neg hk] at hlook
        simp only [setKey, if_neg hk]
        exact ⟨rfl, grows_refl v', ih hlook⟩

theorem setKey_absent {m : List (String × Json)} {k : String} {v : Json}
    (hlook : lookupKey m k = none) : setKey m k v = m ++ [(k, v)] := by
  induction m with
  | nil => simp [setKey]
  | cons p rest ih =>
      obtain ⟨k', v'⟩ := p
      by_cases hk : k' = k
      · subst hk; simp [lookupKey] at hlook
      · simp only [lookupKey, if_neg hk] at hlook
        simp [setKey, hk, ih hlook]

theorem growsList_set {l : List Json} {i : Nat} {w : Json} (hi : i < l.length)
    (hg : Grows (l.get ⟨i, hi⟩) w) : GrowsList l (l.set i w) := by
  induction l generalizing i with
  | nil => simp at hi
  | cons x rest ih =>
      cases i with
      | zero => exact ⟨hg, growsList_refl rest⟩
      | succ j =>
          have hj : j < rest.length := by simpa using hi
          exact ⟨grows_refl x, ih hj hg⟩

theorem growsKVs_lookup {a b : List (String × Json)} (h : GrowsKVs a b)
    {k : String} {v : Json} (hlook : lookupKey a k = some v) :
    ∃ w, lookupKey b k = some w ∧ Grows v w := by
  induction a generalizing b with
  | nil => simp [lookupKey] at hlook
  | cons p rest ih =>
      obtain ⟨k', v'⟩ := p
      cases b with
      | nil => simp [GrowsKVs] at h
      | cons q bs =>
          obtain ⟨k2, w'⟩ := q
          obtain ⟨hk, hvw, hrest⟩ := h
          by_cases hkk : k' = k
          · have hlv : v' = v := by
              simpa [lookupKey, hkk] using hlook
            subst hlv
            refine ⟨w', ?_, hvw⟩
            simp [lookupKey, hk, hkk]
          · have hk2 : k2 ≠ k := by rw [hk]; exact hkk
            simp only [lookupKey, if_neg hkk] at hlook
            obtain ⟨w, hw, hg⟩ := ih hrest hlook
            exact ⟨w, by simpa [lookupKey, hk2] using hw, hg⟩

theorem growsList_length {a b : List Json} (h : GrowsList a b) :
    a.length ≤ b.length := by
  induction a generalizing b with
  | nil => simp
  | cons x rest ih =>
      cases b with
      | nil => simp [GrowsList] at h
      | cons y bs => simpa using ih h.2

theorem growsList_get {a b : List Json} (h : GrowsList a b) :
    ∀ j (hj1 : j < a.length) (hj2 : j < b.length),
      Grows (a.get ⟨j, hj1⟩) (b.get ⟨j, hj2⟩) := by
  induction a generalizing b with
  | nil => intro j hj1; simp at hj1
  | cons x rest ih =>
      intro j hj1 hj2
      cases b with
      | nil => simp [GrowsList] at h
      | cons y bs =>
          cases j with
          | zero => simpa using h.1
          | succ m =>
              have hm1 : m < rest.length := by simpa using hj1
              have hm2 : m < bs.length := by simpa using hj2
              simpa using ih h.2 m hm1 hm2

theorem growsList_getq {a b : List Json} (h : GrowsList a b) {j : Nat}
    {x : Json} (hget : a[j]? = some x) :
    ∃ y, b[j]? = some y ∧ Grows x y := by
  have hj1 : j < a.length := by
    by_contra hc
    rw [List.getElem?_eq_none (not_lt.mp hc)] at hget
    cases hget
  have hj2 : j < b.length := Nat.lt_of_lt_of_le hj1 (growsList_length h)
  refine ⟨b.get ⟨j, hj2⟩, by simp [List.getElem?_eq_getElem hj2, List.get_eq_getElem], ?_⟩
  have hx : a.get ⟨j, hj1⟩ = x := by
    have := List.getElem?_eq_getElem hj1
    rw [hget] at this
    simpa [List.get_eq_getElem] using this.symm
  rw [← hx]
  exact growsList_get h j hj1 hj2

/-- The best-match scan only ever reports the initial candidate or an
element of the scanned list, at its index. -/
theorem bestMatchAux_get (scoreOf : Json → Nat) :
    ∀ (l : List Json) (idx bs : Nat) (cur : Option (Nat × Json)),
    (bestMatchAux scoreOf l idx bs cur).2 = cur
    ∨ ∃ j, ∃ hj : j < l.length,
        (bestMatchAux scoreOf l idx bs cur).2 = some (idx + j, l.get ⟨j, hj⟩) := by
  intro l
  induction l with
  | nil => intro idx bs cur; left; simp [bestMatchAux]
  | cons x xs ih =>
      intro idx bs cur
      by_cases hx : scoreOf x > bs
      · simp only [bestMatchAux, if_pos hx]
        rcases ih (idx + 1) (scoreOf x) (some (idx, x)) with h | ⟨j, hj, h⟩
        · right
          exact ⟨0, by simp, by simpa using h⟩
        · right
          refine ⟨j + 1, by simpa using Nat.succ_lt_succ hj, ?_⟩
          have hidx : idx + 1 + j = idx + (j + 1) := by omega
          rw [h, hidx]
          rfl
      · simp only [bestMatchAux, if_neg hx]
        rcases ih (idx + 1) bs cur with h | ⟨j, hj, h⟩
        · left; exact h
        · right
          refine ⟨j + 1, by simpa using Nat.succ_lt_succ hj, ?_⟩
          have hidx : idx + 1 + j = idx + (j + 1) := by omega
          rw [h, hidx]
          rfl

/-- Under any strategy other than `highest_confidence_wins`, the conflict
resolver only grows the Field: nothing is overwritten or deleted. -/
theorem resolveConflict_grows (cfg : Cfg) (ts : String)
    (hstrat : cfg.strategy ≠ "highest_confidence_wins")
    (mkvs : List (String × Json)) (nv : Json) :
    GrowsKVs mkvs (resolveConflict cfg ts mkvs nv) := by
  unfold resolveConflict
  by_cases he : lookupKey mkvs "value" = some nv
  · simp [he, growsKVs_refl]
  · rw [if_neg he, if_neg hstrat]
    unfold appendConflict
    cases hc : lookupKey mkvs "conflicts" with
    | none => exact growsKVs_refl mkvs
    | some c =>
        cases c with
        | arr l =>
            exact growsKVs_setKey hc (by
              simp only [Grows]
              exact growsList_append l _)
        | null => exact growsKVs_refl mkvs
        | bool b => exact growsKVs_refl mkvs
        | num q => exact growsKVs_refl mkvs
        | str s => exact growsKVs_refl mkvs
        | obj o => exact growsKVs_refl mkvs

/-- The `scalarBranch` dispatch under a non-confidence strategy grows the
tree. -/
theorem scalarBranch_grows (cfg : Cfg) (ts : String)
    (hstrat : cfg.strategy ≠ "highest_confidence_wins")
    (merged : List (String × Json)) (key : String) (node nv : Json)
    (hlook : lookupKey merged key = some node) :
    GrowsKVs merged (scalarBranch cfg ts merged key node nv) := by
  cases node with
  | obj mkvs =>
      simp only [scalarBranch]
      by_cases hv : hasKey mkvs "value" = true
      · rw [if_pos hv]
        exact growsKVs_setKey hlook (by
          simp only [Grows]
          exact resolveConflict_grows cfg ts hstrat mkvs nv)
      · rw [if_neg hv]
        exact growsKVs_refl merged
  | null => simp only [scalarBranch]; exact growsKVs_refl merged
  | bool b => simp only [scalarBranch]; exact growsKVs_refl merged
  | num q => simp only [scalarBranch]; exact growsKVs_refl merged
  | str s => simp only [scalarBranch]; exact growsKVs_refl merged
  | arr l => simp only [scalarBranch]; exact growsKVs_refl merged

/-- Under any strategy other than `highest_confidence_wins` (the code's
`primary_wins` default branch), one merge pass only grows the reconciled
tree: every existing mapping key, list element and scalar is preserved at
its position, and only appends (new keys, new list elements, new conflict
entries) occur. -/
theorem merge_grows_all (fz : String → String → Nat) (cfg : Cfg) (ts : String)
    (hstrat : cfg.strategy ≠ "highest_confidence_wins") :
    ∀ n : Nat,
      (∀ merged nd, sizeOf nd ≤ n →
        GrowsKVs merged (merge_sources fz cfg ts merged nd))
      ∧ (∀ merged key nv, sizeOf nv ≤ n →
        GrowsKVs merged (mergeKey fz cfg ts merged key nv))
      ∧ (∀ key existing items unmatched, sizeOf items ≤ n →
        GrowsList existing (mergeItems fz cfg ts key existing items unmatched)) := by
  intro n
  induction n using Nat.strong_induction_on with
  | _ n IH =>
  refine ⟨?_, ?_, ?_⟩
  · intro merged nd hsz
    cases nd with
    | nil => simp only [merge_sources]; exact growsKVs_refl merged
    | cons p rest =>
        obtain ⟨key, nv⟩ := p
        simp only [merge_sources]
        have hz1 : sizeOf nv < n := by
          have h := hsz
          simp only [List.cons.sizeOf_spec, Prod.mk.sizeOf_spec] at h
          omega
        have hz2 : sizeOf rest < n := by
          have h := hsz
          simp only [List.cons.sizeOf_spec, Prod.mk.sizeOf_spec] at h
          omega
        have g1 := ((IH (sizeOf nv) hz1).2.1) merged key nv (le_refl _)
        have g2 := ((IH (sizeOf rest) hz2).1)
          (mergeKey fz cfg ts merged key nv) rest (le_refl _)
        exact growsKVs_trans g1 g2
  · intro merged key nv hsz
    cases hlook : lookupKey merged key with
    | none =>
        simp only [mergeKey, hlook]
        rw [setKey_absent hlook]
        exact growsKVs_append merged _
    | some node =>
        cases nv with
        | obj nkvs =>
            cases node with
            | obj mkvs =>
                simp only [mergeKey, hlook]
                refine growsKVs_setKey hlook ?_
                simp only [Grows]
                have hz1 : sizeOf nkvs < n := by
                  have h := hsz
                  simp only [Json.obj.sizeOf_spec] at h
                  omega
                exact ((IH (sizeOf nkvs) hz1).1) mkvs nkvs (le_refl _)
            | null => simp only [mergeKey, hlook]; exact scalarBranch_grows cfg ts hstrat merged key _ _ hlook
            | bool b => simp only [mergeKey, hlook]; exact scalarBranch_grows cfg ts hstrat merged key _ _ hlook
            | num q => simp only [mergeKey, hlook]; exact scalarBranch_grows cfg ts hstrat merged key _ _ hlook
            | str s => simp only [mergeKey, hlook]; exact scalarBranch_grows cfg ts hstrat merged key _ _ hlook
            | arr l => simp only [mergeKey, hlook]; exact scalarBranch_grows cfg ts hstrat merged key _ _ hlook
        | arr nitems =>
            cases node with
            | arr mitems =>
                simp only [mergeKey, hlook]
                refine growsKVs_setKey hlook ?_
                simp only [Grows]
                have hz1 : sizeOf nitems < n := by
                  have h := hsz
                  simp only [Json.arr.sizeOf_spec] at h
                  omega
                exact ((IH (sizeOf nitems) hz1).2.2) key mitems nitems [] (le_refl _)
            | null => simp only [mergeKey, hlook]; exact scalarBranch_grows cfg ts hstrat merged key _ _ hlook
            | bool b => simp only [mergeKey, hlook]; exact scalarBranch_grows cfg ts hstrat merged key _ _ hlook
            | num q => simp only [mergeKey, hlook]; exact scalarBranch_grows cfg ts hstrat merged key _ _ hlook
            | str s => simp only [mergeKey, hlook]; exact scalarBranch_grows cfg ts hstrat merged key _ _ hlook
            | obj o => simp only [mergeKey, hlook]; exact scalarBranch_grows cfg ts hstrat merged key _ _ hlook
        | null => simp only [mergeKey, hlook]; exact scalarBranch_grows cfg ts hstrat merged key _ _ hlook
        | bool b => simp only [mergeKey, hlook]; exact scalarBranch_grows cfg ts hstrat merged key _ _ hlook
        | num q => simp only [mergeKey, hlook]; exact scalarBranch_grows cfg ts hstrat merged key _ _ hlook
        | str s => simp only [mergeKey, hlook]; exact scalarBranch_grows cfg ts hstrat merged key _ _ hlook
  · intro key existing items unmatched hsz
    cases items with
    | nil => simp only [mergeItems]; exact growsList_append existing _
    | cons item rest =>
        have hzr : sizeOf rest < n := by
          have h := hsz
          simp only [List.cons.sizeOf_spec] at h
          have hp := sizeOf_json_pos item
          omega
        rcases hbm : bestMatchAux
            (fun e => fz (get_comparison_string item key) (get_comparison_string e key))
            existing 0 0 none with ⟨bs, onode⟩
        cases onode with
        | none =>
            rw [mergeItems_cons_none fz cfg ts key existing item rest unmatched bs hbm]
            exact ((IH (sizeOf rest) hzr).2.2) key existing rest _ (le_refl _)
        | some pr =>
            obtain ⟨i, node⟩ := pr
            rw [mergeItems_cons_eq fz cfg ts key existing item rest unmatched bs i node hbm]
            by_cases hcond : pyTruthy node = true ∧ cfg.threshold ≤ (bs : Rat)
            · rw [if_pos hcond]
              rcases hg : bestMatchAux
                  (fun e => fz (get_comparison_string item key) (get_comparison_string e key))
                  existing 0 0 none with ⟨bs2, onode2⟩
              rw [hbm] at hg
              obtain ⟨hbs2, hon2⟩ := Prod.mk.injEq .. ▸ hg
              cases item with
              | obj ikvs =>
                  cases node with
                  | obj nkvs =>
                      simp only [itemStep]
                      have hloc := bestMatchAux_get
                        (fun e => fz (get_comparison_string (Json.obj ikvs) key)
                          (get_comparison_string e key)) existing 0 0 none
                      rw [hbm] at hloc
                      rcases hloc with hnone | ⟨j, hj, hsome⟩
                      · simp at hnone
                      · simp only [Option.some.injEq, Prod.mk.injEq, Nat.zero_add] at hsome
                        obtain ⟨hij, hnode⟩ := hsome
                        have hzik : sizeOf ikvs < n := by
                          have h := hsz
                          simp only [List.cons.sizeOf_spec, Json.obj.sizeOf_spec] at h
                          omega
                        have hinner : GrowsKVs nkvs
                            (merge_sources fz cfg ts nkvs ikvs) :=
                          ((IH (sizeOf ikvs) hzik).1) nkvs ikvs (le_refl _)
                        have hset : GrowsList existing
                            (existing.set i (Json.obj (merge_sources fz cfg ts nkvs ikvs))) := by
                          subst hij
                          refine growsList_set hj ?_
                          rw [← hnode]
                          simp only [Grows]
                          exact hinner
                        have hrest2 := ((IH (sizeOf rest) hzr).2.2) key
                          (existing.set i (Json.obj (merge_sources fz cfg ts nkvs ikvs)))
                          rest unmatched (le_refl _)
                        exact growsList_trans hset hrest2
                  | null => simp only [itemStep]; exact ((IH (sizeOf rest) hzr).2.2) key existing rest _ (le_refl _)
                  | bool b => simp only [itemStep]; exact ((IH (sizeOf rest) hzr).2.2) key existing rest _ (le_refl _)
                  | num q => simp only [itemStep]; exact ((IH (sizeOf rest) hzr).2.2) key existing rest _ (le_refl _)
                  | str s => simp only [itemStep]; exact ((IH (sizeOf rest) hzr).2.2) key existing rest _ (le_refl _)
                  | arr l => simp only [itemStep]; exact ((IH (sizeOf rest) hzr).2.2) key existing rest _ (le_refl _)
              | null => simp only [itemStep]; exact ((IH (sizeOf rest) hzr).2.2) key existing rest _ (le_refl _)
              | bool b => simp only [itemStep]; exact ((IH (sizeOf rest) hzr).2.2) key existing rest _ (le_refl _)
              | num q => simp only [itemStep]; exact ((IH (sizeOf rest) hzr).2.2) key existing rest _ (le_refl _)
              | str s => simp only [itemStep]; exact ((IH (sizeOf rest) hzr).2.2) key existing rest _ (le_refl _)
              | arr l => simp only [itemStep]; exact ((IH (sizeOf rest) hzr).2.2) key existing rest _ (le_refl _)
            · rw [if_neg hcond]
              exact ((IH (sizeOf rest) hzr).2.2) key existing rest _ (le_refl _)

theorem merge_sources_grows (fz : String → String → Nat) (cfg : Cfg) (ts : String)
    (hstrat : cfg.strategy ≠ "highest_confidence_wins")
    (merged nd : List (String × Json)) :
    GrowsKVs merged (merge_sources fz cfg ts merged nd) :=
  ((merge_grows_all fz cfg ts hstrat (sizeOf nd)).1) merged nd (le_refl _)

theorem mergeAll_grows (fz : String → String → Nat) (ts : String) :
    ∀ (srcs : List (Cfg × List (String × Json))) (merged : List (String × Json)),
    (∀ q ∈ srcs, q.1.strategy = "primary_wins") →
    GrowsKVs merged (mergeAll fz ts srcs merged) := by
  intro srcs
  induction srcs with
  | nil => intro merged _; simp only [mergeAll]; exact growsKVs_refl merged
  | cons p rest ih =>
      intro merged hstrat
      obtain ⟨cfg, nd⟩ := p
      simp only [mergeAll]
      have h1 : cfg.strategy ≠ "highest_confidence_wins" := by
        have := hstrat ⟨cfg, nd⟩ (by simp)
        rw [this]
        decide
      exact growsKVs_trans
        (merge_sources_grows fz cfg ts h1 merged nd)
        (ih (merge_sources fz cfg ts merged nd)
          fun q hq => hstrat q (by simp [hq]))

/-- Following a path commutes with tree growth: whatever an old tree held
at a path, the grown tree holds a grown node there. -/
theorem grows_getPath : ∀ (p : JPath) (o nw x : Json), Grows o nw →
    getPath o p = some x → ∃ y, getPath nw p = some y ∧ Grows x y := by
  intro p
  induction p with
  | nil =>
      intro o nw x hg hget
      simp only [getPath, Option.some.injEq] at hget
      subst hget
      exact ⟨nw, by simp [getPath], hg⟩
  | key k rest ih =>
      intro o nw x hg hget
      cases o with
      | obj okvs =>
          cases nw with
          | obj nkvs =>
              simp only [Grows] at hg
              simp only [getPath, Option.bind_eq_some] at hget ⊢
              obtain ⟨v, hv, hrest⟩ := hget
              obtain ⟨w, hw, hvw⟩ := growsKVs_lookup hg hv
              obtain ⟨y, hy, hxy⟩ := ih v w x hvw hrest
              exact ⟨y, ⟨w, hw, hy⟩, hxy⟩
          | null => simp [Grows] at hg
          | bool b => simp [Grows] at hg
          | num q => simp [Grows] at hg
          | str s => simp [Grows] at hg
          | arr l => simp [Grows] at hg
      | null => simp [getPath] at hget
      | bool b => simp [getPath] at hget
      | num q => simp [getPath] at hget
      | str s => simp [getPath] at hget
      | arr l => simp [getPath] at hget
  | idx i rest ih =>
      intro o nw x hg hget
      cases o with
      | arr oxs =>
          cases nw with
          | arr nxs =>
              simp only [Grows] at hg
              simp only [getPath, Option.bind_eq_some] at hget ⊢
              obtain ⟨v, hv, hrest⟩ := hget
              obtain ⟨w, hw, hvw⟩ := growsList_getq hg hv
              obtain ⟨y, hy, hxy⟩ := ih v w x hvw hrest
              exact ⟨y, ⟨w, hw, hy⟩, hxy⟩
          | null => simp [Grows] at hg
          | bool b => simp [Grows] at hg
          | num q => simp [Grows] at hg
          | str s => simp [Grows] at hg
          | obj l => simp [Grows] at hg
      | null => simp [getPath] at hget
      | bool b => simp [getPath] at hget
      | num q => simp [getPath] at hget
      | str s => simp [getPath] at hget
      | obj l => simp [getPath] at hget

theorem grows_scalar {a b : Json} (ha : isScalar a = true) (h : Grows a b) :
    b = a := by
  cases a <;> simp_all [Grows, isScalar]

theorem grows_arr {l : List Json} {w : Json} (h : Grows (Json.arr l) w) :
    ∃ l2, w = Json.arr l2 ∧ GrowsList l l2 := by
  cases w <;> simp_all [Grows]

/-- C5: under the `primary_wins` policy, every Field present in the
reconciled tree keeps its value, source and confidence through any number
of subsequent merges; its conflicts list only grows — every existing
conflict entry stays at its index (itself only growing), and entries are
only appended, never deleted. -/
theorem C5_primary_wins_monotone (fz : String → String → Nat) (ts : String)
    (srcs : List (Cfg × List (String × Json))) (merged : List (String × Json))
    (p : JPath) (fkvs : List (String × Json)) (v : Json) (s : String) (c : Rat)
    (l : List Json)
    (hstrat : ∀ q ∈ srcs, q.1.strategy = "primary_wins")
    (hpath : getPath (Json.obj merged) p = some (Json.obj fkvs))
    (hval : lookupKey fkvs "value" = some v) (hscal : isScalar v = true)
    (hsrc : lookupKey fkvs "source" = some (Json.str s))
    (hconf : lookupKey fkvs "confidence" = some (Json.num c))
    (hcon : lookupKey fkvs "conflicts" = some (Json.arr l)) :
    ∃ fkvs2 l2,
      getPath (Json.obj (mergeAll fz ts srcs merged)) p = some (Json.obj fkvs2)
      ∧ lookupKey fkvs2 "value" = some v
      ∧ lookupKey fkvs2 "source" = some (Json.str s)
      ∧ lookupKey fkvs2 "confidence" = some (Json.num c)
      ∧ lookupKey fkvs2 "conflicts" = some (Json.arr l2)
      ∧ l.length ≤ l2.length
      ∧ ∀ j (hj1 : j < l.length) (hj2 : j < l2.length),
          Grows (l.get ⟨j, hj1⟩) (l2.get ⟨j, hj2⟩) := by
  have hgrow : Grows (Json.obj merged) (Json.obj (mergeAll fz ts srcs merged)) := by
    simp only [Grows]
    exact mergeAll_grows fz ts srcs merged hstrat
  obtain ⟨y, hy, hxy⟩ := grows_getPath p _ _ _ hgrow hpath
  cases y with
  | obj fkvs2 =>
      simp only [Grows] at hxy
      obtain ⟨wv, hwv, hgv⟩ := growsKVs_lookup hxy hval
      obtain ⟨ws, hws, hgs⟩ := growsKVs_lookup hxy hsrc
      obtain ⟨wc, hwc, hgc⟩ := growsKVs_lookup hxy hconf
      obtain ⟨wl, hwl, hgl⟩ := growsKVs_lookup hxy hcon
      obtain ⟨l2, hl2, hgll⟩ := grows_arr hgl
      subst hl2
      refine ⟨fkvs2, l2, hy, ?_, ?_, ?_, hwl, growsList_length hgll, ?_⟩
      · rw [hwv, grows_scalar hscal hgv]
      · rw [hws, grows_scalar (by simp [isScalar]) hgs]
      · rw [hwc, grows_scalar (by simp [isScalar]) hgc]
      · intro j hj1 hj2
        exact growsList_get hgll j hj1 hj2
  | null => simp [Grows] at hxy
  | bool b => simp [Grows] at hxy
  | num q => simp [Grows] at hxy
  | str s2 => simp [Grows] at hxy
  | arr l0 => simp [Grows] at hxy

/-- Witness for C5: one later `primary_wins` source disagreeing on a Field
leaves its value/source/confidence intact and only appends to conflicts. -/
theorem C5_primary_wins_monotone_w :
    (∀ q ∈ [(Cfg.mk "primary_wins" "web" 1 80,
        [("email", Json.str "b@x.com")])], q.1.strategy = "primary_wins")
    ∧ ∃ fkvs2 l2,
      getPath (Json.obj (mergeAll (fun _ _ => 0) "T2"
          [(Cfg.mk "primary_wins" "web" 1 80, [("email", Json.str "b@x.com")])]
          [("email", Json.obj [("value", Json.str "a@x.com"),
            ("source", Json.str "cv"), ("timestamp", Json.str "T"),
            ("confidence", Json.num 1), ("conflicts", Json.arr [])])]))
        (JPath.key "email" JPath.nil) = some (Json.obj fkvs2)
      ∧ lookupKey fkvs2 "value" = some (Json.str "a@x.com")
      ∧ lookupKey fkvs2 "source" = some (Json.str "cv")
      ∧ lookupKey fkvs2 "confidence" = some (Json.num 1)
      ∧ lookupKey fkvs2 "conflicts" = some (Json.arr l2)
      ∧ ([] : List Json).length ≤ l2.length
      ∧ ∀ j (hj1 : j < ([] : List Json).length) (hj2 : j < l2.length),
          Grows (([] : List Json).get ⟨j, hj1⟩) (l2.get ⟨j, hj2⟩) :=
  ⟨by decide,
   C5_primary_wins_monotone (fun _ _ => 0) "T2"
     [(Cfg.mk "primary_wins" "web" 1 80, [("email", Json.str "b@x.com")])]
     [("email", Json.obj [("value", Json.str "a@x.com"),
       ("source", Json.str "cv"), ("timestamp", Json.str "T"),
       ("confidence", Json.num 1), ("conflicts", Json.arr [])])]
     (JPath.key "email" JPath.nil)
     [("value", Json.str "a@x.com"), ("source", Json.str "cv"),
      ("timestamp", Json.str "T"), ("confidence", Json.num 1),
      ("conflicts", Json.arr [])]
     (Json.str "a@x.com") "cv" 1 []
     (by decide) (by decide) (by decide) (by decide) (by decide) (by decide) (by decide)⟩

theorem wfKVs_mem {kvs : List (String × Json)} (h : wfKVs kvs = true)
    {p : String × Json} (hp : p ∈ kvs) : wfNode p.2 = true := by
  induction kvs with
  | nil => cases hp
  | cons q rest ih =>
      obtain ⟨k, v⟩ := q
      simp only [wfKVs, Bool.and_eq_true] at h
      rcases List.mem_cons.mp hp with h1 | h1
      · subst h1; exact h.1
      · exact ih h.2 h1

theorem wfList_mem {xs : List Json} (h : wfList xs = true)
    {x : Json} (hx : x ∈ xs) : wfNode x = true := by
  induction xs with
  | nil => cases hx
  | cons y rest ih =>
      simp only [wfList, Bool.and_eq_true] at h
      rcases List.mem_cons.mp hx with h1 | h1
      · subst h1; exact h.1
      · exact ih h.2 h1

theorem unambKVs_mem {kvs : List (String × Json)} (h : unambKVs kvs = true)
    {p : String × Json} (hp : p ∈ kvs) : unambAll p.2 = true := by
  induction kvs with
  | nil => cases hp
  | cons q rest ih =>
      obtain ⟨k, v⟩ := q
      simp only [unambKVs, Bool.and_eq_true] at h
      rcases List.mem_cons.mp hp with h1 | h1
      · subst h1; exact h.1
      · exact ih h.2 h1

theorem unambList_mem {xs : List Json} (h : unambList xs = true)
    {x : Json} (hx : x ∈ xs) : unambAll x = true := by
  induction xs with
  | nil => cases hx
  | cons y rest ih =>
      simp only [unambList, Bool.and_eq_true] at h
      rcases List.mem_cons.mp hx with h1 | h1
      · subst h1; exact h.1
      · exact ih h.2 h1

theorem idOkKVs_mem {kvs : List (String × Json)} (h : idOkKVs kvs = true)
    {p : String × Json} (hp : p ∈ kvs) : idOkAll p.2 = true := by
  induction kvs with
  | nil => cases hp
  | cons q rest ih =>
      obtain ⟨k, v⟩ := q
      simp only [idOkKVs, Bool.and_eq_true] at h
      rcases List.mem_cons.mp hp with h1 | h1
      · subst h1; exact h.1
      · exact ih h.2 h1

theorem idOkList_mem {xs : List Json} (h : idOkList xs = true)
    {x : Json} (hx : x ∈ xs) : idOkItem x = true ∧ idOkAll x = true := by
  induction xs with
  | nil => cases hx
  | cons y rest ih =>
      simp only [idOkList, Bool.and_eq_true] at h
      rcases List.mem_cons.mp hx with h1 | h1
      · subst h1; exact ⟨h.1.1, h.1.2⟩
      · exact ih h.2 h1

theorem wfKVs_lookup {kvs : List (String × Json)} (h : wfKVs kvs = true)
    {k : String} {v : Json} (hl : lookupKey kvs k = some v) :
    wfNode v = true := by
  induction kvs with
  | nil => simp [lookupKey] at hl
  | cons q rest ih =>
      obtain ⟨k', v'⟩ := q
      simp only [wfKVs, Bool.and_eq_true] at h
      by_cases hk : k' = k
      · have : v' = v := by simpa [lookupKey, hk] using hl
        subst this
        exact h.1
      · simp only [lookupKey, if_neg hk] at hl
        exact ih h.2 hl

theorem dv_traverse_obj (kvs : List (String × Json)) (path : String) :
    dv_traverse (Json.obj kvs) path
      = if hasKey kvs "value" && hasKey kvs "source" then validate_field kvs path
        else dv_traverseKVs kvs path := rfl

theorem dv_traverse_arr (xs : List Json) (path : String) :
    dv_traverse (Json.arr xs) path
      = exceptSeq (dv_preCheck path xs) (dv_traverseList xs path 0) := rfl

theorem dv_traverseKVs_cons (k : String) (v : Json)
    (rest : List (String × Json)) (path : String) :
    dv_traverseKVs ((k, v) :: rest) path
      = exceptSeq (dv_traverse v (childPath path k)) (dv_traverseKVs rest path) := rfl

theorem dv_traverseList_cons (x : Json) (xs : List Json) (path : String) (i : Nat) :
    dv_traverseList (x :: xs) path i
      = exceptSeq (dv_traverse x (path ++ "[" ++ toString i ++ "]"))
          (dv_traverseList xs path (i + 1)) := rfl

theorem vliField_ok {kvs : List (String × Json)} (ipath f : String)
    (hid : lookupKey kvs f = none ∨ ∃ o, lookupKey kvs f = some (Json.obj o)) :
    ∃ is, vliField kvs ipath f = Except.ok is
      ∧ ∀ e ∈ is, e.kind = "Missing Required Field" := by
  rcases hid with h | ⟨o, h⟩
  · exact ⟨[mrfIssue ipath f], by simp [vliField, h], by
      intro e he
      simp only [List.mem_singleton] at he
      subst he
      rfl⟩
  · simp only [vliField, h]
    cases hv : lookupKey o "value" with
    | none =>
        exact ⟨[mrfIssue ipath f], rfl, by
          intro e he
          simp only [List.mem_singleton] at he
          subst he
          rfl⟩
    | some v =>
        cases v with
        | null =>
            exact ⟨[mrfIssue ipath f], rfl, by
              intro e he
              simp only [List.mem_singleton] at he
              subst he
              rfl⟩
        | str s =>
            by_cases hs : s = ""
            · refine ⟨[mrfIssue ipath f], by simp [hs], by
                intro e he
                simp only [List.mem_singleton] at he
                subst he
                rfl⟩
            · exact ⟨[], by simp [hs], by simp⟩
        | bool b => exact ⟨[], rfl, by simp⟩
        | num q => exact ⟨[], rfl, by simp⟩
        | arr l => exact ⟨[], rfl, by simp⟩
        | obj kv2 => exact ⟨[], rfl, by simp⟩

theorem vliFields_ok {kvs : List (String × Json)} (ipath : String)
    (fields : List String)
    (hid : ∀ f ∈ fields,
      lookupKey kvs f = none ∨ ∃ o, lookupKey kvs f = some (Json.obj o)) :
    ∃ is, vliFields kvs ipath fields = Except.ok is
      ∧ ∀ e ∈ is, e.kind = "Missing Required Field" := by
  induction fields with
  | nil => exact ⟨[], rfl, by simp⟩
  | cons f fs ih =>
      obtain ⟨h1, hh1, hk1⟩ := vliField_ok ipath f (hid f (by simp))
      obtain ⟨h2, hh2, hk2⟩ := ih fun g hg => hid g (by simp [hg])
      refine ⟨h1 ++ h2, ?_, ?_⟩
      · simp only [vliFields, hh1, hh2]
      · intro e he
        rcases List.mem_append.mp he with h | h
        · exact hk1 e h
        · exact hk2 e h

theorem validate_list_items_ok (path : String) (fields : List String)
    (hf : ∀ f ∈ fields, f ∈ idFieldNames) :
    ∀ (xs : List Json) (i : Nat),
    (∀ x ∈ xs, idOkItem x = true) →
    ∃ is, validate_list_items path fields xs i = Except.ok is
      ∧ ∀ e ∈ is, e.kind = "Missing Required Field" := by
  intro xs
  induction xs with
  | nil => intro i _; exact ⟨[], rfl, by simp⟩
  | cons x rest ih =>
      intro i hok
      have hx := hok x (by simp)
      obtain ⟨h2, hh2, hk2⟩ := ih (i + 1) fun y hy => hok y (by simp [hy])
      cases x with
      | obj kvs =>
          have hid : ∀ f ∈ fields,
              lookupKey kvs f = none ∨ ∃ o, lookupKey kvs f = some (Json.obj o) := by
            intro f hfm
            have hfin := hf f hfm
            simp only [idOkItem] at hx
            have := List.all_eq_true.mp hx f hfin
            cases hl : lookupKey kvs f with
            | none => left; rfl
            | some v =>
                cases v with
                | obj o => right; exact ⟨o, rfl⟩
                | null => rw [hl] at this; simp at this
                | bool b => rw [hl] at this; simp at this
                | num q => rw [hl] at this; simp at this
                | str s => rw [hl] at this; simp at this
                | arr l => rw [hl] at this; simp at this
          obtain ⟨h1, hh1, hk1⟩ := @vliFields_ok kvs
            (path ++ "[" ++ toString i ++ "]") fields hid
          refine ⟨h1 ++ h2, ?_, ?_⟩
          · simp only [validate_list_items, hh1, hh2]
          · intro e he
            rcases List.mem_append.mp he with h | h
            · exact hk1 e h
            · exact hk2 e h
      | null => exact ⟨h2, by simpa [validate_list_items, hh2], hk2⟩
      | bool b => exact ⟨h2, by simpa [validate_list_items, hh2], hk2⟩
      | num q => exact ⟨h2, by simpa [validate_list_items, hh2], hk2⟩
      | str s => exact ⟨h2, by simpa [validate_list_items, hh2], hk2⟩
      | arr l => exact ⟨h2, by simpa [validate_list_items, hh2], hk2⟩

theorem isFieldKVs_unpack {kvs : List (String × Json)}
    (h : isFieldKVs kvs = true) :
    ∃ v s t c cl, lookupKey kvs "value" = some v ∧ isScalar v = true
      ∧ lookupKey kvs "source" = some (Json.str s)
      ∧ lookupKey kvs "timestamp" = some (Json.str t)
      ∧ lookupKey kvs "confidence" = some (Json.num c)
      ∧ lookupKey kvs "conflicts" = some (Json.arr cl) := by
  unfold isFieldKVs at h
  simp only [Bool.and_eq_true, decide_eq_true_eq] at h
  obtain ⟨⟨⟨⟨⟨hkeys, hval⟩, hsrc⟩, hts⟩, hconf⟩, hconfl⟩ := h
  cases hv : lookupKey kvs "value" with
  | none => rw [hv] at hval; simp at hval
  | some v =>
      rw [hv] at hval
      cases hs : lookupKey kvs "source" with
      | none => rw [hs] at hsrc; simp at hsrc
      | some sv =>
          rw [hs] at hsrc
          cases sv <;> simp at hsrc
          case str s =>
          cases ht : lookupKey kvs "timestamp" with
          | none => rw [ht] at hts; simp at hts
          | some tv =>
              rw [ht] at hts
              cases tv <;> simp at hts
              case str t =>
              cases hc : lookupKey kvs "confidence" with
              | none => rw [hc] at hconf; simp at hconf
              | some cv =>
                  rw [hc] at hconf
                  cases cv <;> simp at hconf
                  case num c =>
                  cases hcl : lookupKey kvs "conflicts" with
                  | none => rw [hcl] at hconfl; simp at hconfl
                  | some clv =>
                      rw [hcl] at hconfl
                      cases clv <;> simp at hconfl
                      case arr cl =>
                      exact ⟨v, s, t, c, cl, rfl, by simpa using hval, rfl, rfl, rfl, rfl⟩

theorem wfNode_container {v : Json} (h : wfNode v = true) :
    (∃ o, v = Json.obj o) ∨ ∃ l, v = Json.arr l := by
  cases v with
  | obj o => exact Or.inl ⟨o, rfl⟩
  | arr l => exact Or.inr ⟨l, rfl⟩
  | null => simp [wfNode] at h
  | bool b => simp [wfNode] at h
  | num q => simp [wfNode] at h
  | str s => simp [wfNode] at h

/-- On a true Field record, the Validator's field check produces exactly
the spec-side issues. -/
theorem validate_field_field {kvs : List (String × Json)} (path : String)
    (hF : isFieldKVs kvs = true) :
    validate_field kvs path = Except.ok (specFieldIssues kvs path) := by
  obtain ⟨v, s, t, c, cl, hv, hscal, hs, ht, hc, hcl⟩ := isFieldKVs_unpack hF
  simp only [validate_field, specFieldIssues, hv, hs, hcl]
  cases hclnil : decide (cl = []) with
  | true =>
      have hnil : cl = [] := of_decide_eq_true hclnil
      subst hnil
      simp [pyTruthy, pyStr]
  | false =>
      have hne : cl ≠ [] := of_decide_eq_false hclnil
      have htr : pyTruthy (Json.arr cl) = true := by simp [pyTruthy, hne]
      have hlen : 0 < cl.length := List.length_pos.mpr hne
      simp [htr, pyLen, hlen, hne, pyStr]

/-- On a well-formed non-Field mapping that happens to carry both `value`
and `source` keys, the Validator's field check cannot raise. -/
theorem validate_field_wf_ok {kvs : List (String × Json)} (path : String)
    (hwf : wfKVs kvs = true)
    (hv : hasKey kvs "value" = true) (hs : hasKey kvs "source" = true) :
    ∃ is, validate_field kvs path = Except.ok is := by
  rw [hasKey, Option.isSome_iff_exists] at hv hs
  obtain ⟨v, hv⟩ := hv
  obtain ⟨src, hs⟩ := hs
  simp only [validate_field, hv, hs]
  cases hcl : lookupKey kvs "conflicts" with
  | none => exact ⟨_, rfl⟩
  | some c =>
      rcases wfNode_container (wfKVs_lookup hwf hcl) with ⟨o, ho⟩ | ⟨l, hl⟩
      · subst ho
        by_cases htr : pyTruthy (Json.obj o) = true
        · simp only [htr, if_true, pyLen]
          split <;> exact ⟨_, rfl⟩
        · simp only [Bool.not_eq_true] at htr
          simp [htr]
      · subst hl
        by_cases htr : pyTruthy (Json.arr l) = true
        · simp only [htr, if_true, pyLen]
          split <;> exact ⟨_, rfl⟩
        · simp only [Bool.not_eq_true] at htr
          simp [htr]


theorem specFieldIssues_kinds (kvs : List (String × Json)) (path : String) :
    ∀ e ∈ specFieldIssues kvs path, keepMVCF e = true := by
  intro e he
  unfold specFieldIssues at he
  rcases List.mem_append.mp he with h | h
  · split at h
    · split at h
      · simp only [List.mem_singleton] at h
        subst h
        rfl
      · cases h
    · cases h
  · split at h
    · split at h
      · cases h
      · simp only [List.mem_singleton] at h
        subst h
        rfl
    · cases h

theorem traverseKVs_aux : ∀ (kvs : List (String × Json)) (path : String),
    (∀ p ∈ kvs, ∀ pth : String, ∃ is, dv_traverse p.2 pth = Except.ok is
      ∧ (unambAll p.2 = true → is.filter keepMVCF = specIssues p.2 pth)) →
    ∃ is, dv_traverseKVs kvs path = Except.ok is
      ∧ ((∀ p ∈ kvs, unambAll p.2 = true) →
          is.filter keepMVCF = specIssuesKVs kvs path) := by
  intro kvs
  induction kvs with
  | nil => intro path _; exact ⟨[], rfl, by simp [specIssuesKVs]⟩
  | cons q rest ih =>
      intro path hall
      obtain ⟨k, v⟩ := q
      obtain ⟨a, ha, hfa⟩ := hall ⟨k, v⟩ (by simp) (childPath path k)
      obtain ⟨b, hb, hfb⟩ := ih path fun p hp => hall p (by simp [hp])
      refine ⟨a ++ b, by rw [dv_traverseKVs_cons, ha, hb]; rfl, ?_⟩
      intro hun
      rw [List.filter_append, hfa (hun ⟨k, v⟩ (by simp)),
        hfb fun p hp => hun p (by simp [hp])]
      rfl

theorem traverseList_aux : ∀ (xs : List Json) (path : String) (i : Nat),
    (∀ x ∈ xs, ∀ pth : String, ∃ is, dv_traverse x pth = Except.ok is
      ∧ (unambAll x = true → is.filter keepMVCF = specIssues x pth)) →
    ∃ is, dv_traverseList xs path i = Except.ok is
      ∧ ((∀ x ∈ xs, unambAll x = true) →
          is.filter keepMVCF = specIssuesList xs path i) := by
  intro xs
  induction xs with
  | nil => intro path i _; exact ⟨[], rfl, by simp [specIssuesList]⟩
  | cons x rest ih =>
      intro path i hall
      obtain ⟨a, ha, hfa⟩ := hall x (by simp) (path ++ "[" ++ toString i ++ "]")
      obtain ⟨b, hb, hfb⟩ := ih path (i + 1) fun y hy => hall y (by simp [hy])
      refine ⟨a ++ b, by rw [dv_traverseList_cons, ha, hb]; rfl, ?_⟩
      intro hun
      rw [List.filter_append, hfa (hun x (by simp)),
        hfb fun y hy => hun y (by simp [hy])]
      rfl

theorem dv_preCheck_ok (path : String) (xs : List Json)
    (hitems : ∀ x ∈ xs, idOkItem x = true) :
    ∃ is, dv_preCheck path xs = Except.ok is
      ∧ ∀ e ∈ is, e.kind = "Missing Required Field" := by
  unfold dv_preCheck
  by_cases h1 : strEndsWith path "work_experience" = true
  · rw [if_pos h1]
    exact validate_list_items_ok path ["company", "position"]
      (by intro f hf; fin_cases hf <;> simp [idFieldNames]) xs 0 hitems
  · rw [if_neg h1]
    by_cases h2 : strEndsWith path "education" = true
    · rw [if_pos h2]
      exact validate_list_items_ok path ["institution", "degree"]
        (by intro f hf; fin_cases hf <;> simp [idFieldNames]) xs 0 hitems
    · rw [if_neg h2]
      exact ⟨[], rfl, by simp⟩

/-- The Validator's traversal on a §3-well-formed tree whose entity-list
identity fields are mapping-shaped: it never raises, and — when the
runtime Field detection is unambiguous — its Missing Value and Conflict
Found issues are exactly the spec-side ones, in document order. -/
theorem traverse_ok_spec : ∀ (j : Json) (path : String),
    wfNode j = true → idOkAll j = true →
    ∃ is, dv_traverse j path = Except.ok is
      ∧ (unambAll j = true → is.filter keepMVCF = specIssues j path) := by
  intro j
  induction j using json_ind with
  | hnull => intro path h; simp [wfNode] at h
  | hbool b => intro path h; simp [wfNode] at h
  | hnum q => intro path h; simp [wfNode] at h
  | hstr s => intro path h; simp [wfNode] at h
  | hobj kvs ih =>
      intro path hwf hid
      cases hF : isFieldKVs kvs with
      | true =>
          obtain ⟨v, s, t, c, cl, hv, hscal, hs, ht, hc, hcl⟩ := isFieldKVs_unpack hF
          have hkv : hasKey kvs "value" = true := by simp [hasKey, hv]
          have hks : hasKey kvs "source" = true := by simp [hasKey, hs]
          refine ⟨specFieldIssues kvs path, ?_, ?_⟩
          · rw [dv_traverse_obj, hkv, hks]
            simp only [Bool.and_self, if_true]
            exact validate_field_field path hF
          · intro _
            rw [List.filter_eq_self.mpr (specFieldIssues_kinds kvs path)]
            simp [specIssues, hF]
      | false =>
          rw [wfNode, hF] at hwf
          simp only [Bool.false_or, Bool.and_eq_true] at hwf
          obtain ⟨huq, hwfk⟩ := hwf
          rw [idOkAll] at hid
          cases htest : (hasKey kvs "value" && hasKey kvs "source") with
          | true =>
              obtain ⟨htv, hts⟩ := Bool.and_eq_true .. ▸ htest
              obtain ⟨is, hok⟩ := validate_field_wf_ok path hwfk htv hts
              refine ⟨is, by rw [dv_traverse_obj, htest, if_pos rfl]; exact hok, ?_⟩
              intro hun
              rw [unambAll, hF] at hun
              simp only [Bool.false_eq_true, if_false, Bool.and_eq_true,
                Bool.not_eq_true] at hun
              rw [htest] at hun
              simp at hun
          | false =>
              obtain ⟨is, hok, hfil⟩ := traverseKVs_aux kvs path fun p hp pth =>
                ih p hp pth (wfKVs_mem hwfk hp) (idOkKVs_mem hid hp)
              refine ⟨is, ?_, ?_⟩
              · rw [dv_traverse_obj, htest]
                simp only [Bool.false_eq_true, if_false]
                exact hok
              · intro hun
                rw [unambAll, hF] at hun
                simp only [Bool.false_eq_true, if_false, Bool.and_eq_true] at hun
                rw [hfil fun p hp => unambKVs_mem hun.2 hp]
                simp [specIssues, hF]
  | harr xs ih =>
      intro path hwf hid
      rw [wfNode] at hwf
      rw [idOkAll] at hid
      have hitems : ∀ x ∈ xs, idOkItem x = true := fun x hx => (idOkList_mem hid hx).1
      obtain ⟨rest, hrest, hfrest⟩ := traverseList_aux xs path 0 fun x hx pth =>
        ih x hx pth (wfList_mem hwf hx) (idOkList_mem hid hx).2
      obtain ⟨pre, hpre, hkinds⟩ := dv_preCheck_ok path xs hitems
      refine ⟨pre ++ rest, ?_, ?_⟩
      · rw [dv_traverse_arr, hpre, hrest]
        rfl
      · intro hun
        rw [unambAll] at hun
        rw [List.filter_append,
          List.filter_eq_nil.mpr (by
            intro e he
            rw [keepMVCF]
            simp [hkinds e he]),
          hfrest fun x hx => unambList_mem hun hx]
        simp [specIssues]

/-- Counterexample to C9: a tree that is well-formed per §3 (every leaf a
Field, every non-leaf a mapping or sequence of nodes) on which the
Validator *raises*: the work-experience entry's `company` key holds a
sequence of Fields, and `item['company'].get('value')` has no meaning on
a list (Python `AttributeError`). -/
theorem C9_validator_total_cex :
    wfNode (Json.obj [("work_experience", Json.arr [Json.obj
        [("company", Json.arr [Json.obj [("value", Json.str "x"),
          ("source", Json.str "cv"), ("timestamp", Json.str "T"),
          ("confidence", Json.num 1), ("conflicts", Json.arr [])]]),
         ("position", Json.obj [("value", Json.str "p"),
          ("source", Json.str "cv"), ("timestamp", Json.str "T"),
          ("confidence", Json.num 1), ("conflicts", Json.arr [])])]])]) = true
    ∧ dv_traverse (Json.obj [("work_experience", Json.arr [Json.obj
        [("company", Json.arr [Json.obj [("value", Json.str "x"),
          ("source", Json.str "cv"), ("timestamp", Json.str "T"),
          ("confidence", Json.num 1), ("conflicts", Json.arr [])]]),
         ("position", Json.obj [("value", Json.str "p"),
          ("source", Json.str "cv"), ("timestamp", Json.str "T"),
          ("confidence", Json.num 1), ("conflicts", Json.arr [])])]])]) ""
      = Except.error "AttributeError: object has no attribute get" :=
  ⟨by decide, by rfl⟩

/-- C9 (amended): on a §3-well-formed tree in which, additionally, the
identity fields of mapping-shaped list elements are themselves mappings
when present, the Validator's traversal never raises; in this embedding
it is a pure function of the tree — it returns only an issue list (built
by appends, in document order) and cannot mutate its input. -/
theorem C9_validator_total (t : Json) (path : String)
    (hwf : wfNode t = true) (hid : idOkAll t = true) :
    ∃ is, dv_traverse t path = Except.ok is :=
  (traverse_ok_spec t path hwf hid).elim fun is h => ⟨is, h.1⟩

/-- Witness for C9 (amended). -/
theorem C9_validator_total_w :
    wfNode (Json.obj [("name", Json.obj [("value", Json.str "Ada"),
        ("source", Json.str "cv"), ("timestamp", Json.str "T"),
        ("confidence", Json.num 1), ("conflicts", Json.arr [])])]) = true
    ∧ ∃ is, dv_traverse (Json.obj [("name", Json.obj [("value", Json.str "Ada"),
        ("source", Json.str "cv"), ("timestamp", Json.str "T"),
        ("confidence", Json.num 1), ("conflicts", Json.arr [])])]) ""
      = Except.ok is :=
  ⟨by decide,
   C9_validator_total (Json.obj [("name", Json.obj [("value", Json.str "Ada"),
     ("source", Json.str "cv"), ("timestamp", Json.str "T"),
     ("confidence", Json.num 1), ("conflicts", Json.arr [])])]) ""
     (by decide) (by decide)⟩

/-- Counterexample to C7: a §3-well-formed tree holding exactly one Field
whose value is null (so the spec demands exactly one Missing Value issue)
on which the Validator reports *nothing*: the enclosing mapping has keys
`value` and `source`, is mistaken for a Field by the runtime detection,
and is not descended into. -/
theorem C7_validator_issues_cex :
    wfNode (Json.obj [("a", Json.obj [
        ("value", Json.obj [("value", Json.null), ("source", Json.str "cv"),
          ("timestamp", Json.str "T"), ("confidence", Json.num 1),
          ("conflicts", Json.arr [])]),
        ("source", Json.obj [("value", Json.str "x"), ("source", Json.str "cv"),
          ("timestamp", Json.str "T"), ("confidence", Json.num 1),
          ("conflicts", Json.arr [])])])]) = true
    ∧ specIssues (Json.obj [("a", Json.obj [
        ("value", Json.obj [("value", Json.null), ("source", Json.str "cv"),
          ("timestamp", Json.str "T"), ("confidence", Json.num 1),
          ("conflicts", Json.arr [])]),
        ("source", Json.obj [("value", Json.str "x"), ("source", Json.str "cv"),
          ("timestamp", Json.str "T"), ("confidence", Json.num 1),
          ("conflicts", Json.arr [])])])]) ""
      = [⟨"Missing Value", "a.value",
          "The primary value is empty or null. Source: cv."⟩]
    ∧ dv_traverse (Json.obj [("a", Json.obj [
        ("value", Json.obj [("value", Json.null), ("source", Json.str "cv"),
          ("timestamp", Json.str "T"), ("confidence", Json.num 1),
          ("conflicts", Json.arr [])]),
        ("source", Json.obj [("value", Json.str "x"), ("source", Json.str "cv"),
          ("timestamp", Json.str "T"), ("confidence", Json.num 1),
          ("conflicts", Json.arr [])])])]) ""
      = Except.ok [] :=
  ⟨by decide, by decide, by rfl⟩

/-- C7 (amended): on a §3-well-formed tree in which no mapping other than
a Field itself carries both `value` and `source` keys, and identity
fields of mapping list elements are mapping-shaped, the Validator reports
exactly one Missing Value issue (with the field's path and source) per
Field with null/empty value and exactly one Conflict Found issue (with
the path and the count) per Field with n ≥ 1 conflicts, and nothing else
of those two kinds: its Missing Value / Conflict Found issues equal the
spec-side issue list. -/
theorem C7_validator_issues (t : Json) (path : String)
    (hwf : wfNode t = true) (hun : unambAll t = true) (hid : idOkAll t = true) :
    ∃ is, dv_traverse t path = Except.ok is
      ∧ is.filter keepMVCF = specIssues t path :=
  (traverse_ok_spec t path hwf hid).elim fun is h => ⟨is, h.1, h.2 hun⟩

/-- Witness for C7 (amended) on a tree with one empty-valued Field and
one Field carrying two conflict entries. -/
theorem C7_validator_issues_w :
    wfNode (Json.obj [("name", Json.obj [("value", Json.str ""),
        ("source", Json.str "cv"), ("timestamp", Json.str "T"),
        ("confidence", Json.num 1), ("conflicts", Json.arr [])]),
      ("email", Json.obj [("value", Json.str "a@x.com"),
        ("source", Json.str "cv"), ("timestamp", Json.str "T"),
        ("confidence", Json.num 1),
        ("conflicts", Json.arr [Json.null, Json.null])])]) = true
    ∧ ∃ is, dv_traverse (Json.obj [("name", Json.obj [("value", Json.str ""),
        ("source", Json.str "cv"), ("timestamp", Json.str "T"),
        ("confidence", Json.num 1), ("conflicts", Json.arr [])]),
      ("email", Json.obj [("value", Json.str "a@x.com"),
        ("source", Json.str "cv"), ("timestamp", Json.str "T"),
        ("confidence", Json.num 1),
        ("conflicts", Json.arr [Json.null, Json.null])])]) "" = Except.ok is
      ∧ is.filter keepMVCF = specIssues (Json.obj [("name",
          Json.obj [("value", Json.str ""),
          ("source", Json.str "cv"), ("timestamp", Json.str "T"),
          ("confidence", Json.num 1), ("conflicts", Json.arr [])]),
        ("email", Json.obj [("value", Json.str "a@x.com"),
          ("source", Json.str "cv"), ("timestamp", Json.str "T"),
          ("confidence", Json.num 1),
          ("conflicts", Json.arr [Json.null, Json.null])])]) "" :=
  ⟨by decide,
   C7_validator_issues (Json.obj [("name", Json.obj [("value", Json.str ""),
       ("source", Json.str "cv"), ("timestamp", Json.str "T"),
       ("confidence", Json.num 1), ("conflicts", Json.arr [])]),
     ("email", Json.obj [("value", Json.str "a@x.com"),
       ("source", Json.str "cv"), ("timestamp", Json.str "T"),
       ("confidence", Json.num 1),
       ("conflicts", Json.arr [Json.null, Json.null])])]) ""
     (by decide) (by decide) (by decide)⟩
